import Mathlib

/-!
# Verification of the wordpress-markdown-blog-loader core (`blog.py`)

A shallow embedding of the image-reference scanner, the URL classifier,
the image sync engine, the render-time substitution, the corruption
repair filter and the code-language detector of
`src/wordpress_markdown_blog_loader/blog.py`, together with proofs of
the specified properties.

Strings are modelled as `List Char`.  Python `re` scanning (`re.sub`,
`re.finditer`) is embedded as deterministic left-to-right scanners whose
per-position matcher mirrors the backtracking behaviour of the concrete
patterns used by the source (all of which are deterministic, as the
character classes and lazy/greedy quantifiers leave no real choice
points).  `urllib.parse.urlparse` is embedded for ASCII inputs.
-/

set_option maxHeartbeats 1000000

abbrev Str := List Char

/-- Convert a string literal to the `List Char` model. -/
def str (s : String) : Str := s.toList

/-- Python's `\s` character class, restricted to ASCII as used by the source. -/
def pyIsSpace (c : Char) : Bool :=
  c = ' ' || c = '\t' || c = '\n' || c = '\r' || c = '\x0b' || c = '\x0c'

/-- `a` occurs as a prefix of `b`. -/
def isPref : Str → Str → Bool
  | [], _ => true
  | _ :: _, [] => false
  | a :: as, b :: bs => a = b && isPref as bs

/-- `needle` occurs as a contiguous substring of `hay` (Python `in` on str). -/
def containsSubstr (hay needle : Str) : Bool :=
  match hay with
  | [] => isPref needle []
  | _ :: t => isPref needle hay || containsSubstr t needle

/-- Python `str.strip(chars)` for a single strip character. -/
def pyStrip (c : Char) (s : Str) : Str :=
  ((s.dropWhile (· = c)).reverse.dropWhile (· = c)).reverse

/-- Split at the first occurrence of `c`: `some (pre, post)` with
`s = pre ++ c :: post` and `c ∉ pre`, or `none` when `c` does not occur. -/
def splitFirst (c : Char) : Str → Option (Str × Str)
  | [] => none
  | d :: t =>
    if d = c then some ([], t)
    else match splitFirst c t with
      | some (p, q) => some (d :: p, q)
      | none => none

/-! ## The markdown image-reference pattern

Embedding of
`re.compile(r'\!\[(?P<alt_text>[^]]*)\]\((?P<url>.*?)(?P<caption>\s*"[^"]*?")?\)')`
(`blog.py` line 27) and of Python's `re.sub` / `re.finditer` scanning
discipline for it. -/
/-- One match of the image pattern: the three named capture groups.
`caption` is the raw captured text including its leading whitespace and
both quotes; `[]` encodes a non-participating caption group (Python
`None`; the group cannot capture the empty string, so no ambiguity). -/
structure MdMatch where
  alt : Str
  url : Str
  caption : Str
  deriving DecidableEq, Repr

/-- The original text of a match (`match.group(0)`):
`![alt](url caption?)`. -/
def matchText (m : MdMatch) : Str :=
  '!' :: '[' :: (m.alt ++ ']' :: '(' :: (m.url ++ m.caption ++ [')']))

/-- Expect the single character `c` at the head; return the tail. -/
def expectChar (c : Char) : Str → Option Str
  | d :: r => if d = c then some r else none
  | [] => none

/-- Attempt the caption group followed by the closing `)` at the current
position: `(?P<caption>\s*"[^"]*?")?\)` with the group participating
(`\s*` greedily takes the whole whitespace run, `[^"]*?` lazily stops at
the first quote; neither leaves a backtracking choice).  Returns the
captured caption and the remainder after the `)`. -/
def takeCaption (t : Str) : Option (Str × Str) :=
  let ws := t.takeWhile pyIsSpace
  match expectChar '"' (t.dropWhile pyIsSpace) with
  | none => none
  | some r =>
    let body := r.takeWhile (· ≠ '"')
    match expectChar '"' (r.dropWhile (· ≠ '"')) with
    | none => none
    | some r1 =>
      match expectChar ')' r1 with
      | none => none
      | some r2 => some (ws ++ '"' :: (body ++ ['"']), r2)

/-- The lazy `(?P<url>.*?)` loop: at each candidate end position first
try the caption group then the bare `)`; otherwise extend the url by one
character (`.` does not match a newline).  Returns `(url, caption,
remainder-after-the-close-paren)`. -/
def urlLoop (acc : Str) : Str → Option (Str × Str × Str)
  | t@(c :: r) =>
    match takeCaption t with
    | some (cap, rem) => some (acc.reverse, cap, rem)
    | none =>
      if c = ')' then some (acc.reverse, [], r)
      else if c = '\n' then none
      else urlLoop (c :: acc) r
  | [] => none

/-- Try to match the image pattern at the head of `s`; on success return
the match and the remainder of `s` after it. -/
def imgMatchHead (s : Str) : Option (MdMatch × Str) :=
  match expectChar '!' s with
  | none => none
  | some s1 =>
    match expectChar '[' s1 with
    | none => none
    | some t =>
      let alt := t.takeWhile (· ≠ ']')
      match expectChar ']' (t.dropWhile (· ≠ ']')) with
      | none => none
      | some t1 =>
        match expectChar '(' t1 with
        | none => none
        | some t2 =>
          match urlLoop [] t2 with
          | some (url, cap, rem) => some (⟨alt, url, cap⟩, rem)
          | none => none

/-- Fuel-driven worker for `imgSub`; structural recursion on the fuel
keeps the definition kernel-computable, and the fuel (the input length)
is always sufficient because every match strictly shrinks the input. -/
def imgSubGo (repl : MdMatch → Str) : Nat → Str → Str
  | _, [] => []
  | 0, s => s
  | n + 1, c :: rest =>
    match imgMatchHead (c :: rest) with
    | some (m, rem) => repl m ++ imgSubGo repl n rem
    | none => c :: imgSubGo repl n rest

/-- `re.sub(markdown_image_pattern, repl, s)`: scan left to right; at a
match emit `repl` of the match and continue after it, otherwise emit one
character and continue. -/
def imgSub (repl : MdMatch → Str) (s : Str) : Str := imgSubGo repl s.length s

/-- Fuel-driven worker for `imgMatches`. -/
def imgMatchesGo : Nat → Str → List MdMatch
  | _, [] => []
  | 0, _ => []
  | n + 1, c :: rest =>
    match imgMatchHead (c :: rest) with
    | some (m, rem) => m :: imgMatchesGo n rem
    | none => imgMatchesGo n rest

/-- `re.finditer(markdown_image_pattern, s)`: the list of matches found
by the same scan. -/
def imgMatches (s : Str) : List MdMatch := imgMatchesGo s.length s

/-- Fuel-driven worker for `imgPieces`. -/
def imgPiecesGo : Nat → Str → List (Str × MdMatch) × Str
  | _, [] => ([], [])
  | 0, s => ([], s)
  | n + 1, c :: rest =>
    match imgMatchHead (c :: rest) with
    | some (m, rem) =>
      let p := imgPiecesGo n rem
      (([], m) :: p.1, p.2)
    | none =>
      let p := imgPiecesGo n rest
      match p.1 with
      | [] => ([], c :: p.2)
      | (g, m) :: ps => ((c :: g, m) :: ps, p.2)

/-- The scan decomposition of a text: the list of (unmatched gap,
match) pairs, in order, together with the trailing unmatched text. -/
def imgPieces (s : Str) : List (Str × MdMatch) × Str := imgPiecesGo s.length s

/-- Reassemble a scan decomposition, rendering every match through `f`. -/
def joinPieces (f : MdMatch → Str) : List (Str × MdMatch) → Str → Str
  | [], tail => tail
  | (g, m) :: ps, tail => g ++ (f m ++ joinPieces f ps tail)

/-! ## `urllib.parse.urlparse` and `geturl`

Embedding of CPython's `urlsplit`/`urlparse`/`urlunparse` for URLs made
of printable ASCII without control characters (the form produced by the
markdown scanner); application order of the splits follows the library:
scheme, `//`-netloc, fragment, query, then params. -/
structure UrlParts where
  scheme : Str
  netloc : Str
  path : Str
  params : Str
  query : Str
  fragment : Str
  deriving DecidableEq, Repr

/-- ASCII alphabetic (`c.isascii() and c.isalpha()` in CPython's
scheme test). -/
def isAsciiAlpha (c : Char) : Bool :=
  (65 ≤ c.toNat ∧ c.toNat ≤ 90) || (97 ≤ c.toNat ∧ c.toNat ≤ 122)

def isAsciiDigit (c : Char) : Bool :=
  48 ≤ c.toNat ∧ c.toNat ≤ 57

/-- `scheme_chars`: letters, digits and `+-.`. -/
def isSchemeChar (c : Char) : Bool :=
  isAsciiAlpha c || isAsciiDigit c || c = '+' || c = '-' || c = '.'

/-- `str.lower()` on an ASCII character. -/
def asciiLower (c : Char) : Char :=
  if 65 ≤ c.toNat ∧ c.toNat ≤ 90 then Char.ofNat (c.toNat + 32) else c

/-- The scheme test of `urlsplit`: a first colon at a positive index
whose prefix is alphabetic-then-scheme-chars; the scheme is lowercased. -/
def splitScheme (url : Str) : Str × Str :=
  match splitFirst ':' url with
  | some (pre, post) =>
    match pre with
    | [] => ([], url)
    | a :: _ =>
      if isAsciiAlpha a ∧ pre.all isSchemeChar then (pre.map asciiLower, post)
      else ([], url)
  | none => ([], url)

def isNetlocChar (c : Char) : Bool :=
  !(c = '/' || c = '?' || c = '#')

/-- `urlsplit` without the params split. -/
def urlsplitParts (url : Str) : UrlParts :=
  let sp := splitScheme url
  let scheme := sp.1
  let nl :=
    if isPref (str "//") sp.2 then
      let r2 := sp.2.drop 2
      (r2.takeWhile isNetlocChar, r2.dropWhile isNetlocChar)
    else ([], sp.2)
  let fr :=
    match splitFirst '#' nl.2 with
    | some (a, b) => (a, b)
    | none => (nl.2, [])
  let qu :=
    match splitFirst '?' fr.1 with
    | some (a, b) => (a, b)
    | none => (fr.1, [])
  ⟨scheme, nl.1, qu.1, [], qu.2, fr.2⟩

/-- Schemes for which `urlparse` splits `;params` off the path. -/
def usesParams : List Str :=
  [str "", str "ftp", str "hdl", str "prospero", str "http", str "imap",
   str "https", str "shttp", str "rtsp", str "rtspu", str "sip",
   str "sips", str "mms", str "sftp", str "tel"]

/-- Split at the last occurrence of `c`: `s = a ++ c :: b` with `c ∉ b`. -/
def splitLast (c : Char) (s : Str) : Option (Str × Str) :=
  match splitFirst c s.reverse with
  | some (rb, ra) => some (ra.reverse, rb.reverse)
  | none => none

/-- `_splitparams`: the first `;` at or after the last `/` (the whole
string when there is no `/`) splits path from params.  Only called when
a `;` is present and the scheme uses params. -/
def splitParams (url : Str) : Str × Str :=
  match splitLast '/' url with
  | some (a, b) =>
    match splitFirst ';' b with
    | some (p, q) => (a ++ '/' :: p, q)
    | none => (url, [])
  | none =>
    match splitFirst ';' url with
    | some (p, q) => (p, q)
    | none => (url, [])

def urlparse (url : Str) : UrlParts :=
  let u := urlsplitParts url
  if u.scheme ∈ usesParams ∧ u.path.contains ';' then
    let pp := splitParams u.path
    { u with path := pp.1, params := pp.2 }
  else u

/-- `ParseResult.geturl()`, i.e. `urlunparse` on the six components. -/
def geturl (u : UrlParts) : Str :=
  let url0 := if u.params ≠ [] then u.path ++ ';' :: u.params else u.path
  let url1 :=
    if u.netloc ≠ [] ∨ isPref (str "//") url0 then
      '/' :: '/' :: (u.netloc ++
        (if url0 ≠ [] ∧ ¬ isPref (str "/") url0 then '/' :: url0 else url0))
    else url0
  let url2 := if u.scheme ≠ [] then u.scheme ++ ':' :: url1 else url1
  let url3 := if u.query ≠ [] then url2 ++ '?' :: u.query else url2
  if u.fragment ≠ [] then url3 ++ '#' :: u.fragment else url3

/-! ## `pathlib.PurePosixPath` name and stem -/
/-- Split on every occurrence of `c` (the pieces, in order). -/
def splitAll (c : Char) : Str → List Str
  | [] => [[]]
  | d :: t =>
    if d = c then [] :: splitAll c t
    else
      match splitAll c t with
      | [] => [[d]]
      | a :: rest => (d :: a) :: rest

/-- `PurePosixPath(p).name`: the last path component, after dropping
empty and `.` components. -/
def pathName (p : Str) : Str :=
  (((splitAll '/' p).filter (fun comp => ¬(comp = [] ∨ comp = ['.']))).getLast?).getD []

/-- `PurePosixPath(p).stem`: the name without its suffix; the suffix is
the part from the last dot provided that dot is neither the first nor
the last character of the name. -/
def pathStem (p : Str) : Str :=
  let name := pathName p
  match splitLast '.' name with
  | some (a, b) => if a ≠ [] ∧ b ≠ [] then a else name
  | none => name

/-! ## The document model and the sync operations -/
/-- The object returned by `wp.upload_media` (a public url at minimum). -/
structure Media where
  url : Str
  deriving DecidableEq, Repr

/-- A publish timestamp, abstracted to its two serializations used by
`to_wordpress` (`date.isoformat()` and the UTC one). -/
structure Datetime where
  iso : Str
  isoUtc : Str
  deriving DecidableEq, Repr

/-- The `Blog` document state: front-matter fields, the body text and
the in-memory upload bookkeeping (`uploaded_images`). -/
structure Blog where
  dir : Str
  slug : Str
  title : Str
  author : Str
  status : Str
  date : Datetime
  categories : List Str
  ogDescription : Option Str
  excerpt : Option Str
  content : Str
  uploadedImages : List (Str × Media)
  deriving DecidableEq, Repr

/-- The external collaborator capabilities consumed by the sync engine
(`Wordpress` client plus the local filesystem), modelled as total
functions. -/
structure Wp where
  userIdByName : Str → Nat
  categoryId : Str → Nat
  uploadMedia : Str → Str → Media
  fileExists : Str → Bool

/-- `Path(dir).joinpath(filename)` for the cases exercised here: an
absolute filename replaces the directory. -/
def joinPath (dir fn : Str) : Str :=
  if isPref (str "/") fn then fn else dir ++ '/' :: fn

/-- `Blog.local_image_references`: the set (deduplicated list) of the
`path` components of scanned URLs with empty or `file` scheme. -/
def local_image_references (content : Str) : List Str :=
  ((((imgMatches content).map (fun m => urlparse m.url)).filter
      (fun u => u.scheme = [] ∨ u.scheme = str "file")).map (·.path)).dedup

/-- `Blog.remote_image_references`: the set of parsed URLs with scheme
http(s), accepted by the endpoint's host-ownership test, whose path
starts with the upload prefix.  `isHost` abstracts
`WordpressEndpoint.is_host_for` (defined in `api.py`, outside the
sources). -/
def remote_image_references (isHost : UrlParts → Bool) (content : Str) : List UrlParts :=
  (((imgMatches content).map (fun m => urlparse m.url)).filter
      (fun u => (u.scheme = str "https" ∨ u.scheme = str "http") ∧ isHost u ∧
        isPref (str "/wp-content/uploads/") u.path)).dedup

/-- The `downloaded_images` set after the download loop: the `geturl`
serialization of every remote-on-target reference. -/
def downloadedSet (isHost : UrlParts → Bool) (content : Str) : List Str :=
  (remote_image_references isHost content).map geturl

/-- The body rewrite of `Blog.download_remote_images`: every occurrence
whose re-parsed URL serializes into the downloaded set becomes
`![alt](./images/<name><caption>)`; other occurrences are reproduced as
`match.group(0)`. -/
def download_remote_images (isHost : UrlParts → Bool) (content : Str) : Str :=
  imgSub (fun m =>
    let u := urlparse m.url
    if geturl u ∈ downloadedSet isHost content then
      str "![" ++ m.alt ++ (str "](./images/" ++ (pathName u.path ++ (m.caption ++ [')'])))
    else matchText m) content

/-- The substitution pass of `Blog.rendered` (the part before the
markdown→HTML conversion, which is an external library call): an
occurrence whose raw url text is a key of `uploaded_images` becomes
`![alt](<media-url><caption>)`. -/
def rendered_substitution (uploaded : List (Str × Media)) (content : Str) : Str :=
  imgSub (fun m =>
    match List.lookup m.url uploaded with
    | some image => str "![" ++ m.alt ++ (str "](" ++ (image.url ++ (m.caption ++ [')'])))
    | none => matchText m) content

/-- The remote-facing slug computed by `upload_local_images`:
`self.slug + "-" + re.sub(r"[/\.\\]+", "-", Path(filename).stem).strip("-")`. -/
def isSlugSep (c : Char) : Bool :=
  c = '/' || c = '.' || c = '\\'

/-- `re.sub(r"[/\.\\]+", "-", s)`: each maximal run of separators
becomes a single dash. -/
def dashRuns : Str → Str
  | [] => []
  | [c] => if isSlugSep c then ['-'] else [c]
  | c :: d :: r =>
    if isSlugSep c then
      if isSlugSep d then dashRuns (d :: r)
      else '-' :: dashRuns (d :: r)
    else c :: dashRuns (d :: r)

def uploadSlug (blogSlug filename : Str) : Str :=
  blogSlug ++ '-' :: pyStrip '-' (dashRuns (pathStem filename))

/-- `Blog.upload_local_images`: reset `uploaded_images`, then for every
distinct local reference whose resolved path exists, upload under the
sanitized slug and record path → uploaded object; missing files are
skipped with a warning.  The loop's dict inserts, in iteration order,
are exactly the entries of this association list. -/
def upload_local_images (wp : Wp) (b : Blog) : Blog :=
  let present := fun filename => wp.fileExists (joinPath b.dir filename)
  let entry := fun filename =>
    (filename, wp.uploadMedia (uploadSlug b.slug filename) (joinPath b.dir filename))
  { b with uploadedImages :=
      ((local_image_references b.content).filter present).map entry }

/-- The record built by `Blog.to_wordpress`. -/
structure WpRecord where
  title : Str
  slug : Str
  author : Nat
  date : Str
  dateGmt : Str
  content : Str
  format : Str
  status : Str
  categories : List Nat
  excerpt : Option Str
  deriving DecidableEq, Repr

/-- `Blog.to_wordpress`: upload local images, then build the record;
the `excerpt` key is present exactly when `og_description` is truthy.
Returns the record together with the mutated document state. -/
def to_wordpress (wp : Wp) (b : Blog) : WpRecord × Blog :=
  let b1 := upload_local_images wp b
  ({ title := b.title
     slug := b.slug
     author := wp.userIdByName b.author
     date := b.date.iso
     dateGmt := b.date.isoUtc
     content := rendered_substitution b1.uploadedImages b1.content
     format := str "standard"
     status := b.status
     categories := b.categories.map wp.categoryId
     excerpt :=
       match b.ogDescription with
       | some d => if d ≠ [] then some d else none
       | none => none }, b1)

/-- Try to match `</?span[^>]*?>` at the head of `s`; on success return
the remainder after the tag (the optional `/`, then `span`, then the
lazy run of non-`>` characters, then the first `>`). -/
def spanTagHead (s : Str) : Option Str :=
  match expectChar '<' s with
  | none => none
  | some s1 =>
    let s2 := match expectChar '/' s1 with
      | some r => r
      | none => s1
    if isPref (str "span") s2 then
      match expectChar '>' ((s2.drop 4).dropWhile (· ≠ '>')) with
      | some r => some r
      | none => none
    else none

/-- Fuel-driven worker for `stripSpanTags`. -/
def stripSpanTagsGo : Nat → Str → Str
  | _, [] => []
  | 0, s => s
  | n + 1, c :: rest =>
    match spanTagHead (c :: rest) with
    | some rem => stripSpanTagsGo n rem
    | none => c :: stripSpanTagsGo n rest

/-- `re.sub(r"</?span[^>]*?>", "", s)`: delete every scanned span tag. -/
def stripSpanTags (s : Str) : Str := stripSpanTagsGo s.length s

/-- Fuel-driven worker for `findCloser`: scan line by line for the first
line that is exactly three backticks; return the consumed text before
that line and the remainder after its three backticks. -/
def findCloserGo : Nat → Str → Option (Str × Str)
  | 0, _ => none
  | n + 1, s =>
    match splitFirst '\n' s with
    | some (line, rest) =>
      if line = str "```" then some ([], s.drop 3)
      else
        match findCloserGo n rest with
        | some (code, rem) => some (line ++ '\n' :: code, rem)
        | none => none
    | none =>
      if s = str "```" then some ([], s.drop 3) else none

def findCloser (s : Str) : Option (Str × Str) := findCloserGo (s.length + 1) s

/-- Fuel-driven worker for `fenceSub`, the
`re.sub("(^```.*?$)(?P<code>.*?)(^```$)", _remove_span_tags, s)` pass:
at each line start, a line starting with three backticks together with
the first following bare three-backtick line forms a match; a match
whose text starts with `` ```html `` is kept verbatim, otherwise the
span tags of its code group are stripped; other lines are copied. -/
def fenceSubGo : Nat → Str → Str
  | 0, s => s
  | n + 1, s =>
    match splitFirst '\n' s with
    | some (line, rest) =>
      if isPref (str "```") line then
        match findCloser rest with
        | some (code, rem) =>
          (if isPref (str "```html") (line ++ '\n' :: (code ++ str "```"))
           then line ++ '\n' :: (code ++ str "```")
           else line ++ stripSpanTags ('\n' :: code) ++ str "```") ++ fenceSubGo n rem
        | none => s
      else line ++ '\n' :: fenceSubGo n rest
    | none => s

def fenceSub (s : Str) : Str := fenceSubGo s.length s

/-- `remove_span_tags_from_code` (`blog.py` lines 341-371): short-circuit
when the document contains no `</span>`, otherwise run the fenced-block
substitution. -/
def remove_span_tags_from_code (markdown : Str) : Str :=
  if containsSubstr markdown (str "</span>") then fenceSub markdown
  else markdown

/-! ## `_code_block_language` -/
/-- A `<code>` tag as seen by the resolver: its (possibly absent)
multi-valued `class` attribute (`tag.get("class", [])`). -/
structure CodeTag where
  classes : Option (List Str)
  deriving DecidableEq, Repr

/-- A code block as consumed by the resolver: the first `<code>`
descendant found by `code_block.find("code")`, when one exists. -/
structure CodeBlock where
  codeTag : Option CodeTag
  deriving DecidableEq, Repr

/-- Fuel-driven worker for `pyReplaceLanguage`. -/
def removeLanguageGo : Nat → Str → Str
  | 0, s => s
  | _, [] => []
  | n + 1, c :: rest =>
    if isPref (str "language-") (c :: rest) then
      removeLanguageGo n ((c :: rest).drop 9)
    else c :: removeLanguageGo n rest

/-- Python `s.replace("language-", "")`: delete every occurrence,
scanning left to right. -/
def pyReplaceLanguage (s : Str) : Str := removeLanguageGo s.length s

/-- `_code_block_language` (`blog.py` lines 374-393): the first CSS
class of the `<code>` tag that starts with `language-`, with
`.replace("language-", "")` applied; the empty string when there is no
such class or no `<code>` tag (iterating over `""`). -/
def code_block_language (block : CodeBlock) : Str :=
  let classes :=
    match block.codeTag with
    | some tag => tag.classes.getD []
    | none => []
  match classes.filter (fun c => isPref (str "language-") c) with
  | [] => []
  | c :: _ => pyReplaceLanguage c

/-- The first CSS class of the code tag starting with `language-`. -/
def firstLanguageClass (block : CodeBlock) : Option Str :=
  ((match block.codeTag with
    | some tag => tag.classes.getD []
    | none => []).filter (fun c => isPref (str "language-") c)).head?

def wpAll : Wp :=
  ⟨fun _ => 1, fun _ => 2, fun slugArg pathArg => ⟨slugArg ++ '|' :: pathArg⟩,
   fun _ => true⟩

def blogC6 : Blog :=
  ⟨str "/d", str "my-post", str "T", str "A", str "draft", ⟨str "D", str "DU"⟩,
   [], none, none, str "![x](images/sub.dir\\weird.png)", []⟩

def wpC8 : Wp :=
  ⟨fun _ => 1, fun _ => 2, fun slugArg pathArg => ⟨slugArg ++ '|' :: pathArg⟩,
   fun p => decide (p ≠ str "/d/./a.png")⟩

def blogC8 : Blog :=
  ⟨str "/d", str "post", str "T", str "A", str "draft", ⟨str "D", str "DU"⟩,
   [], none, none, str "![a](./a.png) ![b](./b.png)", []⟩

def blogC10 : Blog :=
  ⟨str "/d", str "post", str "T", str "A", str "draft", ⟨str "D", str "DU"⟩,
   [], some (str "summary"), some (str "front-matter excerpt"), str "body", []⟩

/-- Every `\n`-separated line of `s` fails to open a fence. -/
def linesNoFence (s : Str) : Bool :=
  (splitAll '\n' s).all (fun l => !(isPref (str "```") l))

/-- No `\n`-separated line of `s` is a bare three-backtick line. -/
def noBareLine (s : Str) : Bool :=
  (splitAll '\n' s).all (fun l => !(decide (l = str "```")))

/-- One fenced code block of a document: the fence-info string, the
block body, and the text separating it from the next block (or closing
the document). -/
structure FBlock where
  info : Str
  body : Str
  sep : Str
  deriving DecidableEq, Repr

/-- Render a list of fenced blocks (each one
`` ```<info>\n<body>``` <sep>``). -/
def renderBlocks : List FBlock → Str
  | [] => []
  | b :: rest =>
      str "```" ++ b.info ++ '\n' ::
        (b.body ++ (str "```" ++ (b.sep ++ renderBlocks rest)))

/-- The same document with every block body stripped of span tags except
blocks whose info string starts with `html`. -/
def renderBlocksStripped : List FBlock → Str
  | [] => []
  | b :: rest =>
      str "```" ++ b.info ++ '\n' ::
        ((if isPref (str "html") b.info then b.body else stripSpanTags b.body) ++
          (str "```" ++ (b.sep ++ renderBlocksStripped rest)))

/-- Well-shapedness: each info fits on the fence line, each body closes
at a line boundary without containing a bare fence line of its own, each
separator opens no fence and starts right after the closing fence's line
end, and a separator before a further block ends at a line boundary. -/
def wfBlocks : List FBlock → Bool
  | [] => true
  | b :: rest =>
      !(decide ('\n' ∈ b.info)) &&
      noBareLine b.body &&
      (decide (b.body = []) || decide (b.body.getLast? = some '\n')) &&
      linesNoFence b.sep &&
      (decide (b.sep = []) || decide (b.sep.head? = some '\n')) &&
      (decide (rest = []) ||
        (!(decide (b.sep = [])) && decide (b.sep.getLast? = some '\n'))) &&
      wfBlocks rest

theorem expectChar_eq {c : Char} {s r : Str} (h : expectChar c s = some r) :
    s = c :: r := by
  rcases s with _ | ⟨d, t⟩
  · simp [expectChar] at h
  · simp only [expectChar] at h
    by_cases hd : d = c
    · rw [if_pos hd] at h
      simp only [Option.some.injEq] at h
      subst hd; subst h; rfl
    · rw [if_neg hd] at h
      simp at h

theorem takeCaption_eq {t cap rem : Str} (h : takeCaption t = some (cap, rem)) :
    t = cap ++ ')' :: rem := by
  unfold takeCaption at h
  rcases h1 : expectChar '"' (t.dropWhile pyIsSpace) with _ | r <;> rw [h1] at h
  · simp at h
  · simp only at h
    rcases h2 : expectChar '"' (r.dropWhile (· ≠ '"')) with _ | r1 <;> rw [h2] at h
    · simp at h
    · simp only at h
      rcases h3 : expectChar ')' r1 with _ | r2 <;> rw [h3] at h
      · simp at h
      · simp only [Option.some.injEq, Prod.mk.injEq] at h
        obtain ⟨hcap, hrem⟩ := h
        subst hcap; subst hrem
        calc t = t.takeWhile pyIsSpace ++ t.dropWhile pyIsSpace :=
              (List.takeWhile_append_dropWhile ..).symm
          _ = t.takeWhile pyIsSpace ++ '"' :: r := by rw [expectChar_eq h1]
          _ = t.takeWhile pyIsSpace ++
              '"' :: (r.takeWhile (· ≠ '"') ++ r.dropWhile (· ≠ '"')) := by
              rw [List.takeWhile_append_dropWhile]
          _ = t.takeWhile pyIsSpace ++
              '"' :: (r.takeWhile (· ≠ '"') ++ '"' :: r1) := by rw [expectChar_eq h2]
          _ = t.takeWhile pyIsSpace ++
              '"' :: (r.takeWhile (· ≠ '"') ++ '"' :: ')' :: r2) := by rw [expectChar_eq h3]
          _ = (t.takeWhile pyIsSpace ++ '"' :: (r.takeWhile (· ≠ '"') ++ ['"'])) ++
              ')' :: r2 := by simp

theorem urlLoop_eq {t : Str} : ∀ {acc u cap rem : Str},
    urlLoop acc t = some (u, cap, rem) →
    acc.reverse ++ t = u ++ (cap ++ ')' :: rem) := by
  induction t with
  | nil => intro acc u cap rem h; simp [urlLoop] at h
  | cons c r ih =>
    intro acc u cap rem h
    rw [urlLoop] at h
    rcases htc : takeCaption (c :: r) with _ | ⟨cap', rem'⟩ <;> rw [htc] at h
    · simp only at h
      by_cases hc : c = ')'
      · rw [if_pos hc] at h
        subst hc
        simp only [Option.some.injEq, Prod.mk.injEq] at h
        obtain ⟨hu, hcap, hrem⟩ := h
        subst hu; subst hcap; subst hrem
        simp
      · rw [if_neg hc] at h
        by_cases hn : c = '\n'
        · rw [if_pos hn] at h; simp at h
        · rw [if_neg hn] at h
          have := ih h
          simpa using this
    · simp only [Option.some.injEq, Prod.mk.injEq] at h
      obtain ⟨hu, hcap, hrem⟩ := h
      subst hu; subst hcap; subst hrem
      have := takeCaption_eq htc
      rw [this]

theorem imgMatchHead_eq {s : Str} {m : MdMatch} {rem : Str}
    (h : imgMatchHead s = some (m, rem)) : s = matchText m ++ rem := by
  unfold imgMatchHead at h
  rcases h1 : expectChar '!' s with _ | s1 <;> rw [h1] at h
  · simp at h
  · simp only at h
    rcases h2 : expectChar '[' s1 with _ | t <;> rw [h2] at h
    · simp at h
    · simp only at h
      rcases h3 : expectChar ']' (t.dropWhile (· ≠ ']')) with _ | t1 <;> rw [h3] at h
      · simp at h
      · simp only at h
        rcases h4 : expectChar '(' t1 with _ | t2 <;> rw [h4] at h
        · simp at h
        · simp only at h
          rcases hu : urlLoop [] t2 with _ | ⟨url, cap, rem'⟩ <;> rw [hu] at h
          · simp at h
          · simp only [Option.some.injEq, Prod.mk.injEq] at h
            obtain ⟨hm, hrem⟩ := h
            subst hm; subst hrem
            have h5 := urlLoop_eq hu
            simp only [List.reverse_nil, List.nil_append] at h5
            calc s = '!' :: s1 := expectChar_eq h1
              _ = '!' :: '[' :: t := by rw [expectChar_eq h2]
              _ = '!' :: '[' :: (t.takeWhile (· ≠ ']') ++ t.dropWhile (· ≠ ']')) := by
                  rw [List.takeWhile_append_dropWhile]
              _ = '!' :: '[' :: (t.takeWhile (· ≠ ']') ++ ']' :: t1) := by
                  rw [expectChar_eq h3]
              _ = '!' :: '[' :: (t.takeWhile (· ≠ ']') ++ ']' :: '(' :: t2) := by
                  rw [expectChar_eq h4]
              _ = '!' :: '[' :: (t.takeWhile (· ≠ ']') ++
                  ']' :: '(' :: (url ++ (cap ++ ')' :: rem'))) := by rw [h5]
              _ = matchText ⟨t.takeWhile (· ≠ ']'), url, cap⟩ ++ rem' := by
                  simp [matchText]

theorem imgMatchHead_some_shorter {s : Str} {m : MdMatch} {rem : Str}
    (h : imgMatchHead s = some (m, rem)) : rem.length < s.length := by
  have := imgMatchHead_eq h
  subst this
  have : 0 < (matchText m).length := by simp [matchText]
  simp only [List.length_append]
  omega

theorem imgSubGo_fuel (repl : MdMatch → Str) :
    ∀ n s, List.length s ≤ n → imgSubGo repl n s = imgSub repl s := by
  intro n
  induction n using Nat.strong_induction_on with
  | _ n ih =>
    intro s hs
    rcases s with _ | ⟨c, rest⟩
    · rcases n with _ | n <;> rfl
    · rcases n with _ | n
      · simp at hs
      · rw [imgSub]
        simp only [List.length_cons]
        rw [imgSubGo, imgSubGo]
        rcases h : imgMatchHead (c :: rest) with _ | ⟨m, rem⟩
        · simp only
          have h1 : rest.length ≤ n := by simpa using hs
          rw [ih n (Nat.lt_succ_self n) rest h1,
            ih rest.length (by omega) rest (le_refl _)]
        · simp only
          have hlt : rem.length < rest.length + 1 := by
            simpa using imgMatchHead_some_shorter h
          have h1 : rest.length ≤ n := by simpa using hs
          rw [ih n (Nat.lt_succ_self n) rem (by omega),
            ih rest.length (by omega) rem (by omega)]

theorem imgSub_nil (repl : MdMatch → Str) : imgSub repl [] = [] := rfl

theorem imgSub_cons (repl : MdMatch → Str) (c : Char) (rest : Str) :
    imgSub repl (c :: rest) =
      match imgMatchHead (c :: rest) with
      | some (m, rem) => repl m ++ imgSub repl rem
      | none => c :: imgSub repl rest := by
  rw [imgSub]
  simp only [List.length_cons]
  rw [imgSubGo]
  rcases h : imgMatchHead (c :: rest) with _ | ⟨m, rem⟩
  · simp only
    rw [imgSubGo_fuel repl rest.length rest (le_refl _)]
  · simp only
    have := imgMatchHead_some_shorter h
    rw [imgSubGo_fuel repl rest.length rem (by simp at this; omega)]

theorem imgMatchesGo_fuel :
    ∀ n s, List.length s ≤ n → imgMatchesGo n s = imgMatches s := by
  intro n
  induction n using Nat.strong_induction_on with
  | _ n ih =>
    intro s hs
    rcases s with _ | ⟨c, rest⟩
    · rcases n with _ | n <;> rfl
    · rcases n with _ | n
      · simp at hs
      · rw [imgMatches]
        simp only [List.length_cons]
        rw [imgMatchesGo, imgMatchesGo]
        rcases h : imgMatchHead (c :: rest) with _ | ⟨m, rem⟩
        · simp only
          have h1 : rest.length ≤ n := by simpa using hs
          rw [ih n (Nat.lt_succ_self n) rest h1,
            ih rest.length (by omega) rest (le_refl _)]
        · simp only
          have hlt : rem.length < rest.length + 1 := by
            simpa using imgMatchHead_some_shorter h
          have h1 : rest.length ≤ n := by simpa using hs
          rw [ih n (Nat.lt_succ_self n) rem (by omega),
            ih rest.length (by omega) rem (by omega)]

theorem imgMatches_nil : imgMatches [] = [] := rfl

theorem imgMatches_cons (c : Char) (rest : Str) :
    imgMatches (c :: rest) =
      match imgMatchHead (c :: rest) with
      | some (m, rem) => m :: imgMatches rem
      | none => imgMatches rest := by
  rw [imgMatches]
  simp only [List.length_cons]
  rw [imgMatchesGo]
  rcases h : imgMatchHead (c :: rest) with _ | ⟨m, rem⟩
  · simp only
    rw [imgMatchesGo_fuel rest.length rest (le_refl _)]
  · simp only
    have := imgMatchHead_some_shorter h
    rw [imgMatchesGo_fuel rest.length rem (by simp at this; omega)]

theorem imgPiecesGo_fuel :
    ∀ n s, List.length s ≤ n → imgPiecesGo n s = imgPieces s := by
  intro n
  induction n using Nat.strong_induction_on with
  | _ n ih =>
    intro s hs
    rcases s with _ | ⟨c, rest⟩
    · rcases n with _ | n <;> rfl
    · rcases n with _ | n
      · simp at hs
      · rw [imgPieces]
        simp only [List.length_cons]
        rw [imgPiecesGo, imgPiecesGo]
        rcases h : imgMatchHead (c :: rest) with _ | ⟨m, rem⟩
        · simp only
          have h1 : rest.length ≤ n := by simpa using hs
          rw [ih n (Nat.lt_succ_self n) rest h1,
            ih rest.length (by omega) rest (le_refl _)]
        · simp only
          have hlt : rem.length < rest.length + 1 := by
            simpa using imgMatchHead_some_shorter h
          have h1 : rest.length ≤ n := by simpa using hs
          rw [ih n (Nat.lt_succ_self n) rem (by omega),
            ih rest.length (by omega) rem (by omega)]

theorem imgPieces_nil : imgPieces [] = ([], []) := rfl

theorem imgPieces_cons (c : Char) (rest : Str) :
    imgPieces (c :: rest) =
      match imgMatchHead (c :: rest) with
      | some (m, rem) =>
        (([], m) :: (imgPieces rem).1, (imgPieces rem).2)
      | none =>
        match (imgPieces rest).1 with
        | [] => ([], c :: (imgPieces rest).2)
        | (g, m) :: ps => ((c :: g, m) :: ps, (imgPieces rest).2) := by
  rw [imgPieces]
  simp only [List.length_cons]
  rw [imgPiecesGo]
  rcases h : imgMatchHead (c :: rest) with _ | ⟨m, rem⟩
  · simp only
    rw [imgPiecesGo_fuel rest.length rest (le_refl _)]
  · simp only
    have := imgMatchHead_some_shorter h
    rw [imgPiecesGo_fuel rest.length rem (by simp at this; omega)]

/-- Strong induction on the length of a character list. -/
theorem strLenInd {P : Str → Prop}
    (H : ∀ s : Str, (∀ t : Str, t.length < s.length → P t) → P s) (s : Str) : P s := by
  have key : ∀ n : Nat, ∀ s : Str, s.length = n → P s := by
    intro n
    induction n using Nat.strong_induction_on with
    | _ n ih =>
      intro s hs
      exact H s fun t ht => ih t.length (hs ▸ ht) t rfl
  exact key s.length s rfl

/-- `imgSub` is exactly the reassembly of the scan decomposition with
the replacement function applied to every match. -/
theorem imgSub_eq_joinPieces (repl : MdMatch → Str) (s : Str) :
    imgSub repl s = joinPieces repl (imgPieces s).1 (imgPieces s).2 := by
  induction s using strLenInd with
  | H s ih =>
  match s with
  | [] => rw [imgSub_nil, imgPieces_nil]; rfl
  | c :: rest =>
    rw [imgSub_cons, imgPieces_cons]
    rcases h : imgMatchHead (c :: rest) with _ | ⟨m, rem⟩
    · simp only
      rw [ih rest (by simp)]
      rcases hP : imgPieces rest with ⟨ps, tail⟩
      rcases ps with _ | ⟨⟨g, m⟩, ps'⟩
      · simp [joinPieces]
      · simp [joinPieces]
    · simp only
      rw [ih rem (by simpa using imgMatchHead_some_shorter h)]
      simp [joinPieces]

/-- Reassembling the decomposition with the identity replacement
(`match.group(0)`) gives back the original text: unreplaced occurrences
are byte-for-byte the original. -/
theorem joinPieces_matchText (s : Str) :
    joinPieces matchText (imgPieces s).1 (imgPieces s).2 = s := by
  induction s using strLenInd with
  | H s ih =>
  match s with
  | [] => rw [imgPieces_nil]; rfl
  | c :: rest =>
    rw [imgPieces_cons]
    rcases h : imgMatchHead (c :: rest) with _ | ⟨m, rem⟩
    · simp only
      have := ih rest (by simp)
      rcases hP : imgPieces rest with ⟨ps, tail⟩
      rw [hP] at this
      rcases ps with _ | ⟨⟨g, m⟩, ps'⟩
      · simp only [joinPieces] at this ⊢
        rw [this]
      · simp only [joinPieces] at this ⊢
        simp [this]
    · simp only
      have := ih rem (by simpa using imgMatchHead_some_shorter h)
      simp only [joinPieces]
      rw [this, ← imgMatchHead_eq h]
      rfl

/-- The matches of the decomposition are the matches of the scan. -/
theorem imgPieces_matches (s : Str) :
    (imgPieces s).1.map (·.2) = imgMatches s := by
  induction s using strLenInd with
  | H s ih =>
  match s with
  | [] => rw [imgPieces_nil]; rfl
  | c :: rest =>
    rw [imgPieces_cons, imgMatches_cons]
    rcases h : imgMatchHead (c :: rest) with _ | ⟨m, rem⟩
    · simp only
      have := ih rest (by simp)
      rcases hP : imgPieces rest with ⟨ps, tail⟩
      rw [hP] at this
      rcases ps with _ | ⟨⟨g, m⟩, ps'⟩
      · simpa using this
      · simpa using this
    · simp only [List.map_cons, List.cons.injEq, true_and]
      exact ih rem (by simpa using imgMatchHead_some_shorter h)

/-! ## The corruption repair filter (`remove_span_tags_from_code`) -/
theorem length_dropWhile_le (p : Char → Bool) (l : Str) :
    (l.dropWhile p).length ≤ l.length := by
  induction l with
  | nil => simp
  | cons c t ih =>
    rw [List.dropWhile_cons]
    by_cases h : p c
    · simp only [h, if_true]
      exact le_trans ih (by simp)
    · simp [h]

theorem splitFirst_eq {c : Char} {s p q : Str} (h : splitFirst c s = some (p, q)) :
    s = p ++ c :: q := by
  induction s generalizing p with
  | nil => simp [splitFirst] at h
  | cons d t ih =>
    rw [splitFirst] at h
    by_cases hd : d = c
    · rw [if_pos hd] at h
      simp only [Option.some.injEq, Prod.mk.injEq] at h
      obtain ⟨hp, hq⟩ := h
      subst hp; subst hq; subst hd; rfl
    · rw [if_neg hd] at h
      rcases h2 : splitFirst c t with _ | ⟨p', q'⟩ <;> rw [h2] at h
      · simp at h
      · simp only [Option.some.injEq, Prod.mk.injEq] at h
        obtain ⟨hp, hq⟩ := h
        subst hq
        rw [← hp, ih h2]
        rfl

theorem splitFirst_none {c : Char} {s : Str} (h : splitFirst c s = none) :
    c ∉ s := by
  induction s with
  | nil => simp
  | cons d t ih =>
    rw [splitFirst] at h
    by_cases hd : d = c
    · rw [if_pos hd] at h; simp at h
    · rw [if_neg hd] at h
      rcases h2 : splitFirst c t with _ | ⟨p', q'⟩ <;> rw [h2] at h
      · simp only [List.mem_cons]
        push_neg
        exact ⟨fun he => hd he.symm, ih h2⟩
      · simp at h

theorem spanTagHead_some_shorter {s rem : Str} (h : spanTagHead s = some rem) :
    rem.length < s.length := by
  unfold spanTagHead at h
  rcases h1 : expectChar '<' s with _ | s1 <;> rw [h1] at h
  · simp at h
  · simp only at h
    have hs : s = '<' :: s1 := expectChar_eq h1
    have key : ∀ s2 : Str, s2.length ≤ s1.length →
        (if isPref (str "span") s2 then
          match expectChar '>' ((s2.drop 4).dropWhile (· ≠ '>')) with
          | some r => some r
          | none => none
        else none) = some rem → rem.length < s.length := by
      intro s2 hlen hyp
      by_cases hsp : isPref (str "span") s2 = true
      · rw [if_pos hsp] at hyp
        rcases h3 : expectChar '>' ((s2.drop 4).dropWhile (· ≠ '>')) with _ | r <;>
          rw [h3] at hyp
        · simp at hyp
        · simp only [Option.some.injEq] at hyp
          have e3 := expectChar_eq h3
          have l1 : r.length < ((s2.drop 4).dropWhile (· ≠ '>')).length := by
            rw [e3]; simp
          have l2 : ((s2.drop 4).dropWhile (· ≠ '>')).length ≤ (s2.drop 4).length :=
            length_dropWhile_le _ _
          have l3 : (s2.drop 4).length ≤ s2.length := by simp
          rw [hs, ← hyp]
          simp only [List.length_cons]
          omega
      · rw [if_neg hsp] at hyp
        simp at hyp
    rcases h2 : expectChar '/' s1 with _ | s1' <;> rw [h2] at h
    · exact key s1 (le_refl _) h
    · have h2e : s1 = '/' :: s1' := expectChar_eq h2
      refine key s1' ?_ h
      rw [h2e]; simp

theorem stripSpanTagsGo_fuel :
    ∀ n s, List.length s ≤ n → stripSpanTagsGo n s = stripSpanTags s := by
  intro n
  induction n using Nat.strong_induction_on with
  | _ n ih =>
    intro s hs
    rcases s with _ | ⟨c, rest⟩
    · rcases n with _ | n <;> rfl
    · rcases n with _ | n
      · simp at hs
      · rw [stripSpanTags]
        simp only [List.length_cons]
        rw [stripSpanTagsGo, stripSpanTagsGo]
        rcases h : spanTagHead (c :: rest) with _ | rem
        · simp only
          have h1 : rest.length ≤ n := by simpa using hs
          rw [ih n (Nat.lt_succ_self n) rest h1,
            ih rest.length (by omega) rest (le_refl _)]
        · simp only
          have hlt : rem.length < rest.length + 1 := by
            simpa using spanTagHead_some_shorter h
          have h1 : rest.length ≤ n := by simpa using hs
          rw [ih n (Nat.lt_succ_self n) rem (by omega),
            ih rest.length (by omega) rem (by omega)]

theorem stripSpanTags_nil : stripSpanTags [] = [] := rfl

theorem stripSpanTags_cons (c : Char) (rest : Str) :
    stripSpanTags (c :: rest) =
      match spanTagHead (c :: rest) with
      | some rem => stripSpanTags rem
      | none => c :: stripSpanTags rest := by
  rw [stripSpanTags]
  simp only [List.length_cons]
  rw [stripSpanTagsGo]
  rcases h : spanTagHead (c :: rest) with _ | rem
  · simp only
    rw [stripSpanTagsGo_fuel rest.length rest (le_refl _)]
  · simp only
    have := spanTagHead_some_shorter h
    rw [stripSpanTagsGo_fuel rest.length rem (by simp at this; omega)]

theorem findCloserGo_fuel :
    ∀ n s, List.length s < n → findCloserGo n s = findCloser s := by
  intro n
  induction n using Nat.strong_induction_on with
  | _ n ih =>
    intro s hs
    rcases n with _ | n
    · simp at hs
    · rw [findCloser]
      rw [findCloserGo, findCloserGo]
      rcases h : splitFirst '\n' s with _ | ⟨line, rest⟩
      · rfl
      · simp only
        have hsplit := splitFirst_eq h
        have hrest : rest.length < s.length := by rw [hsplit]; simp; omega
        by_cases hl : line = str "```"
        · rw [if_pos hl, if_pos hl]
        · rw [if_neg hl, if_neg hl]
          rw [ih n (Nat.lt_succ_self n) rest (by omega),
            ih s.length (by omega) rest (by omega)]

theorem findCloser_unfold (s : Str) :
    findCloser s =
      match splitFirst '\n' s with
      | some (line, rest) =>
        if line = str "```" then some ([], s.drop 3)
        else
          match findCloser rest with
          | some (code, rem) => some (line ++ '\n' :: code, rem)
          | none => none
      | none =>
        if s = str "```" then some ([], s.drop 3) else none := by
  rw [findCloser, findCloserGo]
  rcases h : splitFirst '\n' s with _ | ⟨line, rest⟩
  · rfl
  · simp only
    have hsplit := splitFirst_eq h
    have hrest : rest.length < s.length := by rw [hsplit]; simp; omega
    by_cases hl : line = str "```"
    · rw [if_pos hl, if_pos hl]
    · rw [if_neg hl, if_neg hl]
      rw [findCloserGo_fuel s.length rest (by omega)]

theorem findCloser_eq {s : Str} : ∀ {code rem : Str},
    findCloser s = some (code, rem) → s = code ++ (str "```" ++ rem) := by
  induction s using strLenInd with
  | H s ih =>
  intro code rem h
  rw [findCloser_unfold] at h
  rcases hsp : splitFirst '\n' s with _ | ⟨line, rest⟩ <;> rw [hsp] at h
  · by_cases hl : s = str "```"
    · rw [if_pos hl] at h
      simp only [Option.some.injEq, Prod.mk.injEq] at h
      obtain ⟨hc, hr⟩ := h
      subst hc; subst hr
      rw [hl]; rfl
    · rw [if_neg hl] at h; simp at h
  · simp only at h
    have hsplit := splitFirst_eq hsp
    by_cases hl : line = str "```"
    · rw [if_pos hl] at h
      simp only [Option.some.injEq, Prod.mk.injEq] at h
      obtain ⟨hc, hr⟩ := h
      subst hc; subst hr
      subst hl
      rw [hsplit]; rfl
    · rw [if_neg hl] at h
      rcases h2 : findCloser rest with _ | ⟨code', rem'⟩ <;> rw [h2] at h
      · simp at h
      · simp only [Option.some.injEq, Prod.mk.injEq] at h
        obtain ⟨hc, hr⟩ := h
        subst hr
        have hrest : rest.length < s.length := by rw [hsplit]; simp; omega
        have hr2 := ih rest hrest h2
        rw [hsplit, hr2, ← hc]
        simp

theorem fenceSubGo_fuel :
    ∀ n s, List.length s ≤ n → fenceSubGo n s = fenceSub s := by
  intro n
  induction n using Nat.strong_induction_on with
  | _ n ih =>
    intro s hs
    rcases n with _ | n
    · have hnil : s = [] := by
        rcases s with _ | ⟨c, t⟩
        · rfl
        · simp at hs
      subst hnil; rfl
    · rw [fenceSub]
      rcases hL : s.length with _ | L
      · rcases s with _ | ⟨c, t⟩
        · rfl
        · simp at hL
      · rw [fenceSubGo, fenceSubGo]
        rcases h : splitFirst '\n' s with _ | ⟨line, rest⟩
        · rfl
        · simp only
          have hsplit := splitFirst_eq h
          have hrest : rest.length < s.length := by rw [hsplit]; simp; omega
          by_cases hf : isPref (str "```") line = true
          · rw [if_pos hf, if_pos hf]
            rcases h2 : findCloser rest with _ | ⟨code, rem⟩
            · rfl
            · simp only
              have hrec := findCloser_eq h2
              have hrem : rem.length < rest.length := by
                rw [hrec]; simp [str]; omega
              rw [ih n (Nat.lt_succ_self n) rem (by omega),
                ih L (by omega) rem (by omega)]
          · rw [if_neg hf, if_neg hf]
            rw [ih n (Nat.lt_succ_self n) rest (by omega),
              ih L (by omega) rest (by omega)]

theorem fenceSub_unfold (s : Str) :
    fenceSub s =
      match splitFirst '\n' s with
      | some (line, rest) =>
        if isPref (str "```") line then
          match findCloser rest with
          | some (code, rem) =>
            (if isPref (str "```html") (line ++ '\n' :: (code ++ str "```"))
             then line ++ '\n' :: (code ++ str "```")
             else line ++ stripSpanTags ('\n' :: code) ++ str "```") ++ fenceSub rem
          | none => s
        else line ++ '\n' :: fenceSub rest
      | none => s := by
  rcases hL : s.length with _ | L
  · rcases s with _ | ⟨c, t⟩
    · rfl
    · simp at hL
  · rw [fenceSub, hL, fenceSubGo]
    rcases h : splitFirst '\n' s with _ | ⟨line, rest⟩
    · rfl
    · simp only
      have hsplit := splitFirst_eq h
      have hrest : rest.length < s.length := by rw [hsplit]; simp; omega
      by_cases hf : isPref (str "```") line = true
      · rw [if_pos hf, if_pos hf]
        rcases h2 : findCloser rest with _ | ⟨code, rem⟩
        · rfl
        · simp only
          have hrec := findCloser_eq h2
          have hrem : rem.length < rest.length := by
            rw [hrec]; simp [str]; omega
          rw [fenceSubGo_fuel L rem (by omega)]
      · rw [if_neg hf, if_neg hf]
        rw [fenceSubGo_fuel L rest (by omega)]

/-! ## Supporting lemmas for the upload map -/
theorem lookup_filter_map (g : Str → Media) (P : Str → Bool) :
    ∀ l : List Str, l.Nodup → ∀ fn : Str,
      List.lookup fn ((l.filter P).map (fun x => (x, g x))) =
        if fn ∈ l ∧ P fn = true then some (g fn) else none := by
  intro l
  induction l with
  | nil => intro _ fn; simp
  | cons x t ih =>
    intro hnd fn
    have hnd' : t.Nodup := (List.nodup_cons.mp hnd).2
    have hx : x ∉ t := (List.nodup_cons.mp hnd).1
    by_cases hP : P x = true
    · rw [List.filter_cons_of_pos hP]
      simp only [List.map_cons]
      by_cases hfx : fn = x
      · subst hfx
        simp [List.lookup, hP]
      · have hbeq : (fn == x) = false := by simp [hfx]
        simp only [List.lookup, hbeq]
        rw [ih hnd' fn]
        by_cases hm : fn ∈ t <;> simp [hm, hfx]
    · rw [List.filter_cons_of_neg (by simpa using hP)]
      rw [ih hnd' fn]
      by_cases hfx : fn = x
      · subst hfx
        simp [hx, hP]
      · by_cases hm : fn ∈ t <;> simp [hm, hfx]

/-! ## Helper lemmas for `pyReplaceLanguage` -/
theorem isPref_length {p s : Str} (h : isPref p s = true) : p.length ≤ s.length := by
  induction p generalizing s with
  | nil => simp
  | cons a as ih =>
    rcases s with _ | ⟨b, bs⟩
    · simp [isPref] at h
    · simp only [isPref, Bool.and_eq_true] at h
      have := ih h.2
      simp only [List.length_cons]
      omega

theorem isPref_self_append (p x : Str) : isPref p (p ++ x) = true := by
  induction p with
  | nil => rfl
  | cons a as ih => simp [isPref, ih]

theorem removeLanguageGo_fuel :
    ∀ n s, List.length s ≤ n → removeLanguageGo n s = pyReplaceLanguage s := by
  intro n
  induction n using Nat.strong_induction_on with
  | _ n ih =>
    intro s hs
    rcases s with _ | ⟨c, rest⟩
    · rcases n with _ | n <;> rfl
    · rcases n with _ | n
      · simp at hs
      · rw [pyReplaceLanguage]
        simp only [List.length_cons]
        rw [removeLanguageGo, removeLanguageGo]
        by_cases hp : isPref (str "language-") (c :: rest) = true
        · rw [if_pos hp, if_pos hp]
          have hlen : (str "language-").length ≤ (c :: rest).length := isPref_length hp
          have h9 : ((c :: rest).drop 9).length = rest.length + 1 - 9 := by simp
          have h1 : rest.length ≤ n := by simpa using hs
          rw [ih n (Nat.lt_succ_self n) _ (by simp [str] at hlen ⊢ <;> omega),
            ih rest.length (by omega) _ (by simp [str] at hlen ⊢ <;> omega)]
        · rw [if_neg hp, if_neg hp]
          have h1 : rest.length ≤ n := by simpa using hs
          rw [ih n (Nat.lt_succ_self n) rest h1,
            ih rest.length (by omega) rest (le_refl _)]

theorem pyReplaceLanguage_cons (c : Char) (rest : Str) :
    pyReplaceLanguage (c :: rest) =
      if isPref (str "language-") (c :: rest) then
        pyReplaceLanguage ((c :: rest).drop 9)
      else c :: pyReplaceLanguage rest := by
  rw [pyReplaceLanguage]
  simp only [List.length_cons]
  rw [removeLanguageGo]
  by_cases hp : isPref (str "language-") (c :: rest) = true
  · rw [if_pos hp, if_pos hp]
    have hlen := isPref_length hp
    rw [removeLanguageGo_fuel rest.length _ (by simp [str] at hlen ⊢ <;> omega)]
  · rw [if_neg hp, if_neg hp]
    rw [removeLanguageGo_fuel rest.length rest (le_refl _)]

theorem pyReplaceLanguage_of_no_occurrence {s : Str}
    (h : containsSubstr s (str "language-") = false) : pyReplaceLanguage s = s := by
  induction s with
  | nil => rfl
  | cons c rest ih =>
    rw [containsSubstr] at h
    simp only [Bool.or_eq_false_iff] at h
    rw [pyReplaceLanguage_cons, if_neg (by simp [h.1]), ih h.2]

theorem pyReplaceLanguage_strip (l : Str)
    (h : containsSubstr l (str "language-") = false) :
    pyReplaceLanguage (str "language-" ++ l) = l := by
  have hpref : isPref (str "language-") (str "language-" ++ l) = true :=
    isPref_self_append _ _
  have : str "language-" ++ l = 'l' :: (str "anguage-" ++ l) := rfl
  rw [this, pyReplaceLanguage_cons]
  rw [← this, if_pos hpref]
  have hdrop : (str "language-" ++ l).drop 9 = l := by
    have : (str "language-").length = 9 := rfl
    rw [← this, List.drop_left]
  rw [hdrop, pyReplaceLanguage_of_no_occurrence h]

/-! ## Claim theorems -/
/-- C1: Download-then-rewrite: after `download_remote_images`, every
occurrence of an image embed in the body whose URL was downloaded (its
re-parse serializes into the downloaded set, which holds exactly the
remote-on-target references whose bytes were fetched) is rewritten to
`![alt](./images/<basename-of-remote-path><caption>)` preserving the
alt text and the caption verbatim, and every occurrence whose URL was
not downloaded is left byte-for-byte unchanged (the same decomposition
reassembled with `match.group(0)` is the original body). -/
theorem c1_download_rewrite (isHost : UrlParts → Bool) (content : Str) :
    download_remote_images isHost content =
      joinPieces
        (fun m =>
          if geturl (urlparse m.url) ∈ downloadedSet isHost content then
            str "![" ++ m.alt ++ (str "](./images/" ++
              (pathName (urlparse m.url).path ++ (m.caption ++ [')'])))
          else matchText m)
        (imgPieces content).1 (imgPieces content).2 ∧
    joinPieces matchText (imgPieces content).1 (imgPieces content).2 = content :=
  ⟨imgSub_eq_joinPieces _ _, joinPieces_matchText _⟩

/-- C2 counterexample: the render-time substitution is keyed by the raw
URL text, not by its path component.  For the body
`![a](./img.png?x=1)` the path component `./img.png` is a key of the
upload map (and is exactly what `upload_local_images` would key), yet
the rendered output leaves the embed unchanged instead of substituting
the remote URL. -/
theorem c2_counterexample :
    (urlparse (str "./img.png?x=1")).path = str "./img.png" ∧
    local_image_references (str "![a](./img.png?x=1)") = [str "./img.png"] ∧
    rendered_substitution [(str "./img.png", ⟨str "http://h/u.png"⟩)]
        (str "![a](./img.png?x=1)") = str "![a](./img.png?x=1)" ∧
    rendered_substitution [(str "./img.png", ⟨str "http://h/u.png"⟩)]
        (str "![a](./img.png?x=1)") ≠ str "![a](http://h/u.png)" := by
  refine ⟨by decide, by decide, by decide, by decide⟩

/-- C2 (amended): render-time substitution is keyed by the full raw URL
text of the embed: every occurrence whose raw URL string is a key of the
upload map is substituted with `![alt](<remote-url><caption>)` before
HTML rendering, and every occurrence whose raw URL string is not a key —
including a local reference whose URL carries a query string or
fragment, even when its path component is a key — is left as-is. -/
theorem c2_render_substitution (uploaded : List (Str × Media)) (content : Str) :
    rendered_substitution uploaded content =
      joinPieces
        (fun m =>
          match List.lookup m.url uploaded with
          | some image => str "![" ++ m.alt ++ (str "](" ++ (image.url ++ (m.caption ++ [')'])))
          | none => matchText m)
        (imgPieces content).1 (imgPieces content).2 ∧
    joinPieces matchText (imgPieces content).1 (imgPieces content).2 = content :=
  ⟨imgSub_eq_joinPieces _ _, joinPieces_matchText _⟩

/-- C4 counterexample: the repair filter is not idempotent.  Stripping
`<span>` out of `</sp<span>an></span>` splices a new `</span>` out of
the surrounding characters, which a second pass then removes. -/
theorem c4_counterexample :
    remove_span_tags_from_code (remove_span_tags_from_code
        (str "```a\n</sp<span>an></span>\n```\n")) ≠
      remove_span_tags_from_code (str "```a\n</sp<span>an></span>\n```\n") := by
  decide

/-- C4 (amended): the repair filter is idempotent at every input it
leaves unchanged and at every input whose output contains no `</span>`
(the second pass short-circuits); it is not idempotent in general. -/
theorem c4_idempotent_conditional (s : Str)
    (h : remove_span_tags_from_code s = s ∨
      containsSubstr (remove_span_tags_from_code s) (str "</span>") = false) :
    remove_span_tags_from_code (remove_span_tags_from_code s) =
      remove_span_tags_from_code s := by
  rcases h with h | h
  · rw [h]
    exact h
  · rw [remove_span_tags_from_code, if_neg (by simp [h])]

theorem c4_witness :
    (remove_span_tags_from_code (str "plain text") = str "plain text" ∨
      containsSubstr (remove_span_tags_from_code (str "plain text"))
        (str "</span>") = false) ∧
    remove_span_tags_from_code (remove_span_tags_from_code (str "plain text")) =
      remove_span_tags_from_code (str "plain text") :=
  ⟨Or.inl (by decide),
   c4_idempotent_conditional (str "plain text") (Or.inl (by decide))⟩

/-- C6: every local image reference with filename `f` uploaded by
`upload_local_images` is uploaded under the slug
`<document-slug>-<sanitized-stem>`, where the sanitized stem is the
stem of `f` with every run of `/`, `.`, `\` collapsed to one dash and
leading/trailing dashes stripped. -/
theorem c6_upload_slug (wp : Wp) (b : Blog) (fn : Str)
    (hmem : fn ∈ local_image_references b.content)
    (hex : wp.fileExists (joinPath b.dir fn) = true) :
    List.lookup fn (upload_local_images wp b).uploadedImages =
      some (wp.uploadMedia
        (b.slug ++ '-' :: pyStrip '-' (dashRuns (pathStem fn)))
        (joinPath b.dir fn)) := by
  have hnd : (local_image_references b.content).Nodup := by
    rw [local_image_references]
    exact List.nodup_dedup _
  show List.lookup fn (((local_image_references b.content).filter _).map _) = _
  rw [lookup_filter_map _ _ _ hnd fn]
  rw [if_pos ⟨hmem, hex⟩]
  rfl

theorem c6_witness :
    List.lookup (str "images/sub.dir\\weird.png")
        (upload_local_images wpAll blogC6).uploadedImages =
      some (wpAll.uploadMedia (str "my-post-sub-dir-weird")
        (joinPath blogC6.dir (str "images/sub.dir\\weird.png"))) := by
  have h := c6_upload_slug wpAll blogC6 (str "images/sub.dir\\weird.png")
    (by decide) (by decide)
  rw [h]
  have hs : blogC6.slug ++ '-' ::
      pyStrip '-' (dashRuns (pathStem (str "images/sub.dir\\weird.png"))) =
      str "my-post-sub-dir-weird" := by decide
  rw [hs]

/-- C7: `upload_local_images` leaves the body text and every other
document field unchanged; its only effect is resetting and repopulating
the in-memory upload map, whose value does not depend on the previous
map, so the saved markdown keeps referencing local image paths. -/
theorem c7_upload_frame (wp : Wp) (b : Blog) (prev : List (Str × Media)) :
    (upload_local_images wp b).content = b.content ∧
    (upload_local_images wp b).dir = b.dir ∧
    (upload_local_images wp b).slug = b.slug ∧
    (upload_local_images wp b).title = b.title ∧
    (upload_local_images wp b).author = b.author ∧
    (upload_local_images wp b).status = b.status ∧
    (upload_local_images wp b).date = b.date ∧
    (upload_local_images wp b).categories = b.categories ∧
    (upload_local_images wp b).ogDescription = b.ogDescription ∧
    (upload_local_images wp b).excerpt = b.excerpt ∧
    upload_local_images wp { b with uploadedImages := prev } =
      upload_local_images wp b :=
  ⟨rfl, rfl, rfl, rfl, rfl, rfl, rfl, rfl, rfl, rfl, rfl⟩

/-- C8: a local image reference whose resolved path does not exist is
skipped by `upload_local_images` — no exception, no map entry — while
every other distinct local reference whose file exists is still
processed and uploaded. -/
theorem c8_missing_non_fatal (wp : Wp) (b : Blog) (fn : Str)
    (hmem : fn ∈ local_image_references b.content)
    (hmiss : wp.fileExists (joinPath b.dir fn) = false) :
    List.lookup fn (upload_local_images wp b).uploadedImages = none ∧
    ∀ fn', fn' ∈ local_image_references b.content →
      wp.fileExists (joinPath b.dir fn') = true →
      List.lookup fn' (upload_local_images wp b).uploadedImages =
        some (wp.uploadMedia (uploadSlug b.slug fn') (joinPath b.dir fn')) := by
  have hnd : (local_image_references b.content).Nodup := by
    rw [local_image_references]
    exact List.nodup_dedup _
  constructor
  · show List.lookup fn (((local_image_references b.content).filter _).map _) = _
    rw [lookup_filter_map _ _ _ hnd fn]
    rw [if_neg]
    rintro ⟨-, hc⟩
    rw [hmiss] at hc
    exact absurd hc (by simp)
  · intro fn' hmem' hex'
    show List.lookup fn' (((local_image_references b.content).filter _).map _) = _
    rw [lookup_filter_map _ _ _ hnd fn']
    rw [if_pos ⟨hmem', hex'⟩]

theorem c8_witness :
    List.lookup (str "./a.png") (upload_local_images wpC8 blogC8).uploadedImages =
      none ∧
    List.lookup (str "./b.png") (upload_local_images wpC8 blogC8).uploadedImages =
      some (wpC8.uploadMedia (uploadSlug blogC8.slug (str "./b.png"))
        (joinPath blogC8.dir (str "./b.png"))) := by
  have h := c8_missing_non_fatal wpC8 blogC8 (str "./a.png") (by decide) (by decide)
  exact ⟨h.1, h.2 (str "./b.png") (by decide) (by decide)⟩

/-- C9 counterexample: `_code_block_language` applies
`.replace("language-", "")`, which deletes every occurrence of
`language-`, not just the prefix: the class `language-language-x`
yields `x`, while the remainder after the prefix is `language-x`. -/
theorem c9_counterexample :
    code_block_language ⟨some ⟨some [str "language-language-x"]⟩⟩ = str "x" ∧
    code_block_language ⟨some ⟨some [str "language-language-x"]⟩⟩ ≠
      str "language-x" := by
  refine ⟨by decide, by decide⟩

/-- C9 (amended): `_code_block_language` returns the first CSS class of
the inner `<code>` tag starting with `language-`, with every occurrence
of the substring `language-` removed — equal to the remainder after the
prefix whenever that remainder does not itself contain `language-`; with
no such class (or no `<code>` tag) it returns the empty string, never an
absent value. -/
theorem c9_language_detection (block : CodeBlock) (l : Str) :
    (code_block_language block =
      match firstLanguageClass block with
      | some c => pyReplaceLanguage c
      | none => []) ∧
    (firstLanguageClass block = some (str "language-" ++ l) →
      containsSubstr l (str "language-") = false →
      code_block_language block = l) := by
  constructor
  · rw [code_block_language, firstLanguageClass]
    rcases h : (match block.codeTag with
      | some tag => tag.classes.getD []
      | none => []).filter (fun c => isPref (str "language-") c) with _ | ⟨c, cs⟩ <;>
      rw [h]
    · rfl
    · rfl
  · intro h1 h2
    rw [code_block_language]
    rw [firstLanguageClass] at h1
    rcases h : (match block.codeTag with
      | some tag => tag.classes.getD []
      | none => []).filter (fun c => isPref (str "language-") c) with _ | ⟨c, cs⟩
    · rw [h] at h1; simp at h1
    · rw [h] at h1
      rw [h]
      simp only [List.head?_cons, Option.some.injEq] at h1
      subst h1
      simpa using pyReplaceLanguage_strip l h2

theorem c9_witness :
    code_block_language ⟨some ⟨some [str "code", str "language-python"]⟩⟩ =
      str "python" :=
  (c9_language_detection ⟨some ⟨some [str "code", str "language-python"]⟩⟩
    (str "python")).2 (by decide) (by decide)

/-- C10: the record built by `to_wordpress` carries an `excerpt` value
exactly when the document's og description override is truthy
(set and non-empty), in which case the value is that og description; the
document's own `excerpt` front-matter field is never consulted (the
record is unchanged under any modification of it). -/
theorem c10_excerpt (wp : Wp) (b : Blog) (e : Option Str) :
    ((to_wordpress wp b).1.excerpt ≠ none ↔
      (b.ogDescription ≠ none ∧ b.ogDescription ≠ some [])) ∧
    ((to_wordpress wp b).1.excerpt ≠ none →
      (to_wordpress wp b).1.excerpt = b.ogDescription) ∧
    (to_wordpress wp { b with excerpt := e }).1 = (to_wordpress wp b).1 := by
  refine ⟨?_, ?_, rfl⟩ <;>
  · rcases hog : b.ogDescription with _ | d
    · simp [to_wordpress, hog]
    · by_cases hd : d = []
      · subst hd; simp [to_wordpress, hog]
      · simp [to_wordpress, hog, hd]

theorem c10_witness :
    (to_wordpress wpAll blogC10).1.excerpt = blogC10.ogDescription :=
  (c10_excerpt wpAll blogC10 none).2.1 (by decide)

/-! ## Fenced-block decomposition for the repair filter -/
theorem splitFirst_not_mem {c : Char} {s : Str} : ∀ {p q : Str},
    splitFirst c s = some (p, q) → c ∉ p := by
  induction s with
  | nil => intro p q h; simp [splitFirst] at h
  | cons d t ih =>
    intro p q h
    rw [splitFirst] at h
    by_cases hd : d = c
    · rw [if_pos hd] at h
      simp only [Option.some.injEq, Prod.mk.injEq] at h
      obtain ⟨hp, -⟩ := h
      subst hp; simp
    · rw [if_neg hd] at h
      rcases h2 : splitFirst c t with _ | ⟨p', q'⟩ <;> rw [h2] at h
      · simp at h
      · simp only [Option.some.injEq, Prod.mk.injEq] at h
        obtain ⟨hp, -⟩ := h
        subst hp
        simp only [List.mem_cons]
        push_neg
        exact ⟨fun he => hd he.symm, ih h2⟩

theorem splitFirst_append_cons {c : Char} {line : Str} (x : Str)
    (h : c ∉ line) : splitFirst c (line ++ c :: x) = some (line, x) := by
  induction line with
  | nil => simp [splitFirst]
  | cons d t ih =>
    have hd : d ≠ c := by
      intro hdc; exact h (by simp [hdc])
    have ht : c ∉ t := fun hm => h (by simp [hm])
    simp only [List.cons_append, splitFirst, List.append_eq, if_neg hd]
    rw [ih ht]

theorem splitAll_append_cons {c : Char} {line : Str} (rest : Str)
    (h : c ∉ line) : splitAll c (line ++ c :: rest) = line :: splitAll c rest := by
  induction line with
  | nil => simp [splitAll]
  | cons d t ih =>
    have hd : d ≠ c := by
      intro hdc; exact h (by simp [hdc])
    have ht : c ∉ t := fun hm => h (by simp [hm])
    simp only [List.cons_append, splitAll, List.append_eq, if_neg hd]
    rw [ih ht]

theorem mem_of_getLast? {s : Str} {a : Char} (h : s.getLast? = some a) : a ∈ s := by
  induction s with
  | nil => simp at h
  | cons c t ih =>
    rcases ht : t with _ | ⟨d, r⟩
    · subst ht
      simp only [List.getLast?_singleton, Option.some.injEq] at h
      simp [h]
    · subst ht
      rw [List.getLast?_cons_cons] at h
      exact List.mem_cons.mpr (Or.inr (ih h))

theorem linesNoFence_split {line rest : Str} (hline : '\n' ∉ line) :
    linesNoFence (line ++ '\n' :: rest) =
      (!(isPref (str "```") line) && linesNoFence rest) := by
  rw [linesNoFence, splitAll_append_cons rest hline, List.all_cons, linesNoFence]

theorem noBareLine_split {line rest : Str} (hline : '\n' ∉ line) :
    noBareLine (line ++ '\n' :: rest) =
      (!(decide (line = str "```")) && noBareLine rest) := by
  rw [noBareLine, splitAll_append_cons rest hline, List.all_cons, noBareLine]

theorem getLast?_append_right {a b : Str} (hb : b ≠ []) :
    (a ++ b).getLast? = b.getLast? := by
  induction a with
  | nil => rfl
  | cons c t ih =>
    rcases hab : t ++ b with _ | ⟨d, r⟩
    · rcases b with _ | _
      · exact absurd rfl hb
      · simp at hab
    · simp only [List.cons_append, hab, List.getLast?_cons_cons]
      rw [← hab, ih]

/-- A text none of whose lines opens a fence is copied unchanged. -/
theorem fenceSub_copy : ∀ s : Str, linesNoFence s = true → fenceSub s = s := by
  intro s
  induction s using strLenInd with
  | H s ih =>
  intro h
  rw [fenceSub_unfold]
  rcases hsp : splitFirst '\n' s with _ | ⟨line, rest⟩
  · rfl
  · simp only
    have hsplit := splitFirst_eq hsp
    have hnm := splitFirst_not_mem hsp
    rw [hsplit, linesNoFence_split hnm] at h
    simp only [Bool.and_eq_true, Bool.not_eq_true'] at h
    rw [if_neg (by simp [h.1])]
    have hrest : rest.length < s.length := by rw [hsplit]; simp; omega
    rw [ih rest hrest h.2, hsplit]

/-- A fence-free prefix ending at a line boundary is copied, and the
scan continues on the remainder. -/
theorem fenceSub_prepend (t : Str) : ∀ pre : Str, linesNoFence pre = true →
    (pre = [] ∨ pre.getLast? = some '\n') →
    fenceSub (pre ++ t) = pre ++ fenceSub t := by
  intro pre
  induction pre using strLenInd with
  | H pre ih =>
  intro hpre hnl
  rcases hnl with rfl | hnl
  · rfl
  · have hmem : '\n' ∈ pre := mem_of_getLast? hnl
    rcases hsp : splitFirst '\n' pre with _ | ⟨line, rest⟩
    · exact absurd hmem (splitFirst_none hsp)
    · have hsplit := splitFirst_eq hsp
      have hnm := splitFirst_not_mem hsp
      rw [hsplit, linesNoFence_split hnm] at hpre
      simp only [Bool.and_eq_true, Bool.not_eq_true'] at hpre
      have hstep : pre ++ t = line ++ '\n' :: (rest ++ t) := by
        rw [hsplit]; simp
      rw [hstep, fenceSub_unfold]
      rw [splitFirst_append_cons (rest ++ t) hnm]
      simp only
      rw [if_neg (by simp [hpre.1])]
      have hrest : rest.length < pre.length := by rw [hsplit]; simp; omega
      have hrnl : rest = [] ∨ rest.getLast? = some '\n' := by
        by_cases hr0 : rest = []
        · exact Or.inl hr0
        · right
          have h1 : pre.getLast? = rest.getLast? := by
            rw [hsplit, getLast?_append_right (by simp)]
            rcases rest with _ | ⟨c, r⟩
            · exact absurd rfl hr0
            · rw [List.getLast?_cons_cons]
          rw [← h1]
          exact hnl
      rw [ih rest hrest hpre.2 hrnl, hsplit]
      simp

/-- The closer search finds exactly the intended bare fence line when
the body has none and ends at a line boundary. -/
theorem findCloser_block (post : Str)
    (hpost : post = [] ∨ post.head? = some '\n') :
    ∀ body : Str, noBareLine body = true →
    (body = [] ∨ body.getLast? = some '\n') →
    findCloser (body ++ (str "```" ++ post)) = some (body, post) := by
  intro body
  induction body using strLenInd with
  | H body ih =>
  intro hb hbNl
  rcases hbNl with rfl | hbNl
  · rw [List.nil_append, findCloser_unfold]
    rcases hpost with rfl | hp
    · rfl
    · rcases post with _ | ⟨c, p⟩
      · rfl
      · simp only [List.head?_cons, Option.some.injEq] at hp
        subst hp
        rw [splitFirst_append_cons p (by decide)]
        simp only
        rw [if_pos trivial]
        rfl
  · have hmem : '\n' ∈ body := mem_of_getLast? hbNl
    rcases hsp : splitFirst '\n' body with _ | ⟨line, rest⟩
    · exact absurd hmem (splitFirst_none hsp)
    · have hsplit := splitFirst_eq hsp
      have hnm := splitFirst_not_mem hsp
      rw [hsplit, noBareLine_split hnm] at hb
      simp only [Bool.and_eq_true, Bool.not_eq_true', decide_eq_false_iff_not] at hb
      have hstep : body ++ (str "```" ++ post) =
          line ++ '\n' :: (rest ++ (str "```" ++ post)) := by
        rw [hsplit]; simp
      rw [hstep, findCloser_unfold]
      rw [splitFirst_append_cons _ hnm]
      simp only
      rw [if_neg hb.1]
      have hrest : rest.length < body.length := by rw [hsplit]; simp; omega
      have hrnl : rest = [] ∨ rest.getLast? = some '\n' := by
        by_cases hr0 : rest = []
        · exact Or.inl hr0
        · right
          have h1 : body.getLast? = rest.getLast? := by
            rw [hsplit, getLast?_append_right (by simp)]
            rcases rest with _ | ⟨c, r⟩
            · exact absurd rfl hr0
            · rw [List.getLast?_cons_cons]
          rw [← h1]
          exact hbNl
      rw [ih rest hrest hb.2 hrnl]
      simp [hsplit]

theorem isPref_append_cancel (a b x : Str) :
    isPref (a ++ b) (a ++ x) = isPref b x := by
  induction a with
  | nil => rfl
  | cons c t ih => simp [isPref, ih]

theorem isPref_html_newline (info z : Str) :
    isPref (str "html") (info ++ '\n' :: z) = isPref (str "html") info := by
  rcases info with _ | ⟨a, _ | ⟨b, _ | ⟨c, _ | ⟨d, r⟩⟩⟩⟩ <;>
    simp [str, isPref]

theorem stripSpanTags_newline_cons (body : Str) :
    stripSpanTags ('\n' :: body) = '\n' :: stripSpanTags body := by
  rw [stripSpanTags_cons]
  have h : spanTagHead ('\n' :: body) = none := by
    simp [spanTagHead, expectChar]
  rw [h]

/-- A single well-shaped fenced block at a line start: the substitution
keeps an `` ```html ``-prefixed block verbatim, strips the span tags of
any other block body, and continues after the closing fence. -/
theorem fenceSub_block (info body rem : Str)
    (hinfo : '\n' ∉ info)
    (hb : noBareLine body = true)
    (hbNl : body = [] ∨ body.getLast? = some '\n')
    (hrem : rem = [] ∨ rem.head? = some '\n') :
    fenceSub (str "```" ++ info ++ '\n' :: (body ++ (str "```" ++ rem))) =
      str "```" ++ info ++ '\n' ::
        ((if isPref (str "html") info then body else stripSpanTags body) ++
          (str "```" ++ fenceSub rem)) := by
  have hline : '\n' ∉ str "```" ++ info := by
    intro hm
    rcases List.mem_append.mp hm with h | h
    · simp [str] at h
    · exact hinfo h
  have hassoc : str "```" ++ info ++ '\n' :: (body ++ (str "```" ++ rem)) =
      (str "```" ++ info) ++ '\n' :: (body ++ (str "```" ++ rem)) := by simp
  rw [hassoc, fenceSub_unfold, splitFirst_append_cons _ hline]
  simp only
  rw [if_pos (isPref_self_append (str "```") info)]
  rw [findCloser_block rem hrem body hb hbNl]
  simp only
  have hcond : isPref (str "```html")
      ((str "```" ++ info) ++ '\n' :: (body ++ str "```")) =
      isPref (str "html") info := by
    have h7 : (str "```html" : Str) = str "```" ++ str "html" := rfl
    rw [h7, List.append_assoc, isPref_append_cancel,
      isPref_html_newline]
  rw [hcond]
  by_cases hh : isPref (str "html") info = true
  · rw [if_pos hh, if_pos hh]
    simp
  · rw [if_neg hh, if_neg hh]
    rw [stripSpanTags_newline_cons]
    simp

theorem fenceSub_blocks : ∀ blocks : List FBlock, wfBlocks blocks = true →
    fenceSub (renderBlocks blocks) = renderBlocksStripped blocks := by
  intro blocks
  induction blocks with
  | nil => intro _; rfl
  | cons b rest ih =>
    intro hwf
    rw [wfBlocks] at hwf
    simp only [Bool.and_eq_true, Bool.not_eq_true', decide_eq_false_iff_not,
      decide_eq_true_eq, Bool.or_eq_true] at hwf
    obtain ⟨⟨⟨⟨⟨⟨hinfo, hbody⟩, hbodyNl⟩, hsepNF⟩, hsepHd⟩, hlast⟩, hwfrest⟩ := hwf
    rw [renderBlocks]
    have hremHd : b.sep ++ renderBlocks rest = [] ∨
        (b.sep ++ renderBlocks rest).head? = some '\n' := by
      rcases hsepHd with hsep0 | hsepH
      · rcases hlast with hrest0 | ⟨hsepne, -⟩
        · subst hrest0; rw [hsep0]; exact Or.inl rfl
        · exact absurd hsep0 hsepne
      · right
        rcases hs : b.sep with _ | ⟨c, cs⟩
        · rw [hs] at hsepH; simp at hsepH
        · rw [hs] at hsepH
          simp only [List.head?_cons] at hsepH
          simp only [List.cons_append, List.head?_cons]
          exact hsepH
    rw [fenceSub_block b.info b.body _ hinfo hbody hbodyNl hremHd]
    have htail : fenceSub (b.sep ++ renderBlocks rest) =
        b.sep ++ renderBlocksStripped rest := by
      rcases hlast with hrest0 | ⟨hsepne, hsepLast⟩
      · subst hrest0
        rw [show renderBlocks ([] : List FBlock) = [] from rfl, List.append_nil,
          fenceSub_copy b.sep hsepNF,
          show renderBlocksStripped ([] : List FBlock) = [] from rfl,
          List.append_nil]
      · rw [fenceSub_prepend (renderBlocks rest) b.sep hsepNF (Or.inr hsepLast),
          ih hwfrest]
    rw [htail, renderBlocksStripped]

/-- C3 counterexample: the claim fails on the code in two ways.  A fence
whose info string is `htmlx` (not exactly `html`) is nevertheless left
completely unchanged, because the code tests
`match.group(0).startswith("```html")`; and a block containing a
`<span ...>` tag but no `</span>` anywhere in the document is returned
unchanged, because the function short-circuits when `"</span>"` does not
occur in the input. -/
theorem c3_counterexample :
    remove_span_tags_from_code (str "```htmlx\n<span class=b>c</span>\n```\n") =
      str "```htmlx\n<span class=b>c</span>\n```\n" ∧
    remove_span_tags_from_code (str "```htmlx\n<span class=b>c</span>\n```\n") ≠
      str "```htmlx\nc\n```\n" ∧
    remove_span_tags_from_code (str "```p\n<span class=x>code\n```\n") =
      str "```p\n<span class=x>code\n```\n" ∧
    remove_span_tags_from_code (str "```p\n<span class=x>code\n```\n") ≠
      str "```p\ncode\n```\n" := by
  refine ⟨by decide, by decide, by decide, by decide⟩

/-- C3 (amended): on a document made of a fence-free prefix followed by
well-shaped fenced code blocks (each opened by a line starting with
three backticks and closed by the first bare three-backtick line) with
fence-free separators: when the document contains `</span>` somewhere,
every block whose opening fence line does not start with `` ```html ``
has its body stripped of span tags by one left-to-right scan of
`</?span[^>]*?>`, every block whose fence-info starts with `html` (not
only exactly `html`) is kept verbatim, and all text outside the blocks
and the fence marker lines are untouched; a document without `</span>`
is returned completely unchanged. -/
theorem c3_fenced_block_repair (pre : Str) (blocks : List FBlock)
    (hpre : linesNoFence pre = true)
    (hpreNl : pre = [] ∨ pre.getLast? = some '\n')
    (hwf : wfBlocks blocks = true) :
    remove_span_tags_from_code (pre ++ renderBlocks blocks) =
      if containsSubstr (pre ++ renderBlocks blocks) (str "</span>") then
        pre ++ renderBlocksStripped blocks
      else pre ++ renderBlocks blocks := by
  rw [remove_span_tags_from_code]
  by_cases hc : containsSubstr (pre ++ renderBlocks blocks) (str "</span>") = true
  · rw [if_pos hc, if_pos hc,
      fenceSub_prepend (renderBlocks blocks) pre hpre hpreNl,
      fenceSub_blocks blocks hwf]
  · rw [if_neg hc, if_neg hc]

theorem c3_witness :
    remove_span_tags_from_code (str "intro\n" ++
        renderBlocks [⟨str "python", str "<span class=x>a</span>\n", str "\nend"⟩]) =
      str "intro\n" ++
        renderBlocksStripped
          [⟨str "python", str "<span class=x>a</span>\n", str "\nend"⟩] := by
  have h := c3_fenced_block_repair (str "intro\n")
    [⟨str "python", str "<span class=x>a</span>\n", str "\nend"⟩]
    (by decide) (Or.inr (by decide)) (by decide)
  rw [h, if_pos (by decide)]

/-! ## Character-level lemmas for the URL round trip -/
theorem char_toNat_ofNat {n : Nat} (h : n.isValidChar) :
    (Char.ofNat n).toNat = n := by
  unfold Char.ofNat
  rw [dif_pos h]
  rfl

theorem char_toNat_inj {a b : Char} (h : a.toNat = b.toNat) : a = b :=
  Char.ext (UInt32.ext h)

theorem char_eq_iff_toNat {a b : Char} : a = b ↔ a.toNat = b.toNat :=
  ⟨congrArg _, char_toNat_inj⟩

theorem bool_eq_of_iff {x y : Bool} (h : x = true ↔ y = true) : x = y := by
  cases x <;> cases y <;> simp_all

theorem asciiLower_toNat (c : Char) :
    (asciiLower c).toNat =
      if 65 ≤ c.toNat ∧ c.toNat ≤ 90 then c.toNat + 32 else c.toNat := by
  unfold asciiLower
  by_cases h : 65 ≤ c.toNat ∧ c.toNat ≤ 90
  · rw [if_pos h, if_pos h, char_toNat_ofNat (Or.inl (by omega))]
  · rw [if_neg h, if_neg h]

theorem asciiLower_ne_colon {c : Char} (h : c ≠ ':') : asciiLower c ≠ ':' := by
  intro he
  apply h
  have h1 := congrArg Char.toNat he
  rw [asciiLower_toNat] at h1
  have h58 : (':' : Char).toNat = 58 := rfl
  by_cases h6 : 65 ≤ c.toNat ∧ c.toNat ≤ 90
  · rw [if_pos h6, h58] at h1
    omega
  · rw [if_neg h6] at h1
    exact char_toNat_inj h1

theorem isAsciiAlpha_asciiLower (c : Char) :
    isAsciiAlpha (asciiLower c) = isAsciiAlpha c := by
  apply bool_eq_of_iff
  unfold isAsciiAlpha
  rw [asciiLower_toNat]
  by_cases h : 65 ≤ c.toNat ∧ c.toNat ≤ 90
  · rw [if_pos h]
    simp only [Bool.or_eq_true, decide_eq_true_eq]
    omega
  · rw [if_neg h]

theorem isSchemeChar_toNat (c : Char) :
    isSchemeChar c = true ↔
      ((65 ≤ c.toNat ∧ c.toNat ≤ 90) ∨ (97 ≤ c.toNat ∧ c.toNat ≤ 122) ∨
        (48 ≤ c.toNat ∧ c.toNat ≤ 57) ∨ c.toNat = 43 ∨ c.toNat = 45 ∨
        c.toNat = 46) := by
  unfold isSchemeChar isAsciiAlpha isAsciiDigit
  have h43 : (c = '+') ↔ c.toNat = 43 := by
    rw [char_eq_iff_toNat]; rfl
  have h45 : (c = '-') ↔ c.toNat = 45 := by
    rw [char_eq_iff_toNat]; rfl
  have h46 : (c = '.') ↔ c.toNat = 46 := by
    rw [char_eq_iff_toNat]; rfl
  simp only [Bool.or_eq_true, decide_eq_true_eq, h43, h45, h46]
  tauto

theorem isSchemeChar_asciiLower (c : Char) :
    isSchemeChar (asciiLower c) = isSchemeChar c := by
  apply bool_eq_of_iff
  rw [isSchemeChar_toNat, isSchemeChar_toNat, asciiLower_toNat]
  by_cases h : 65 ≤ c.toNat ∧ c.toNat ≤ 90
  · rw [if_pos h]
    omega
  · rw [if_neg h]

theorem asciiLower_idem (c : Char) : asciiLower (asciiLower c) = asciiLower c := by
  apply char_toNat_inj
  simp only [asciiLower_toNat]
  split_ifs <;> omega

theorem map_asciiLower_idem (l : Str) :
    (l.map asciiLower).map asciiLower = l.map asciiLower := by
  induction l with
  | nil => rfl
  | cons c t ih => simp [asciiLower_idem, ih]

theorem all_isSchemeChar_map_asciiLower (l : Str) :
    (l.map asciiLower).all isSchemeChar = l.all isSchemeChar := by
  induction l with
  | nil => rfl
  | cons c t ih => simp [isSchemeChar_asciiLower, ih]

theorem colon_not_mem_map_asciiLower {l : Str} (h : ':' ∉ l) :
    ':' ∉ l.map asciiLower := by
  intro hm
  rcases List.mem_map.mp hm with ⟨y, hy, hey⟩
  exact asciiLower_ne_colon (fun hyc => h (hyc ▸ hy)) hey

/-! ## List scanning lemmas for the URL round trip -/
theorem takeWhile_append_all {P : Char → Bool} {l : Str} (r : Str)
    (h : l.all P = true) : (l ++ r).takeWhile P = l ++ r.takeWhile P := by
  induction l with
  | nil => rfl
  | cons c t ih =>
    simp only [List.all_cons, Bool.and_eq_true] at h
    simp [List.takeWhile_cons, h.1, ih h.2]

theorem dropWhile_append_all {P : Char → Bool} {l : Str} (r : Str)
    (h : l.all P = true) : (l ++ r).dropWhile P = r.dropWhile P := by
  induction l with
  | nil => rfl
  | cons c t ih =>
    simp only [List.all_cons, Bool.and_eq_true] at h
    simp [List.dropWhile_cons, h.1, ih h.2]

theorem all_takeWhile (P : Char → Bool) (l : Str) :
    (l.takeWhile P).all P = true := by
  induction l with
  | nil => rfl
  | cons c t ih =>
    rw [List.takeWhile_cons]
    by_cases h : P c
    · simp [h, ih]
    · simp [h]

theorem head_dropWhile_false {P : Char → Bool} {l : Str} {c : Char}
    (h : (l.dropWhile P).head? = some c) : P c = false := by
  induction l with
  | nil => simp at h
  | cons d t ih =>
    rw [List.dropWhile_cons] at h
    by_cases hd : P d
    · rw [if_pos hd] at h
      exact ih h
    · rw [if_neg hd] at h
      simp only [List.head?_cons, Option.some.injEq] at h
      subst h
      simpa using hd

theorem takeWhile_nil_of_head {P : Char → Bool} {r : Str}
    (h : r = [] ∨ ∃ c rs, r = c :: rs ∧ P c = false) : r.takeWhile P = [] := by
  rcases h with rfl | ⟨c, rs, rfl, hc⟩
  · rfl
  · simp [List.takeWhile_cons, hc]

theorem dropWhile_self_of_head {P : Char → Bool} {r : Str}
    (h : r = [] ∨ ∃ c rs, r = c :: rs ∧ P c = false) : r.dropWhile P = r := by
  rcases h with rfl | ⟨c, rs, rfl, hc⟩
  · rfl
  · simp [List.dropWhile_cons, hc]

theorem splitFirst_none_of_not_mem {c : Char} {s : Str} (h : c ∉ s) :
    splitFirst c s = none := by
  rcases hs : splitFirst c s with _ | ⟨p, q⟩
  · rfl
  · exact absurd (by rw [splitFirst_eq hs]; simp) h

theorem splitLast_eq {c : Char} {s a b : Str} (h : splitLast c s = some (a, b)) :
    s = a ++ c :: b ∧ c ∉ b := by
  unfold splitLast at h
  rcases hs : splitFirst c s.reverse with _ | ⟨rb, ra⟩ <;> rw [hs] at h
  · simp at h
  · simp only [Option.some.injEq, Prod.mk.injEq] at h
    obtain ⟨ha, hb⟩ := h
    have he := splitFirst_eq hs
    have hnm := splitFirst_not_mem hs
    subst ha; subst hb
    constructor
    · have h2 : s = (rb ++ c :: ra).reverse := by rw [← he]; simp
      rw [h2]
      simp
    · intro hm
      exact hnm (by simpa using hm)

theorem splitLast_append_cons {c : Char} {a b : Str} (h : c ∉ b) :
    splitLast c (a ++ c :: b) = some (a, b) := by
  unfold splitLast
  have hrev : (a ++ c :: b).reverse = b.reverse ++ c :: a.reverse := by simp
  rw [hrev, splitFirst_append_cons a.reverse (by simpa using h)]
  simp

theorem splitLast_none_of_not_mem {c : Char} {s : Str} (h : c ∉ s) :
    splitLast c s = none := by
  unfold splitLast
  rw [splitFirst_none_of_not_mem (by simpa using h)]

theorem contains_iff_mem {s : Str} {c : Char} : s.contains c = true ↔ c ∈ s := by
  induction s with
  | nil => simp
  | cons d t ih =>
    rw [List.contains_cons]
    simp only [Bool.or_eq_true, beq_iff_eq, List.mem_cons]
    rw [ih]

theorem isPref_iff_pref {p s : Str} : isPref p s = true ↔ p <+: s := by
  induction p generalizing s with
  | nil => simp [isPref]
  | cons a as ih =>
    rcases s with _ | ⟨b, bs⟩
    · simp [isPref]
    · simp only [isPref, Bool.and_eq_true, decide_eq_true_eq,
        List.cons_prefix_cons, ih]

theorem isNetlocChar_false_iff {c : Char} :
    isNetlocChar c = false ↔ c = '/' ∨ c = '?' ∨ c = '#' := by
  unfold isNetlocChar
  simp [not_or]
  tauto

theorem splitScheme_empty : splitScheme [] = ([], []) := rfl

theorem splitScheme_valid_pref {a : Char} {t x : Str}
    (hcolon : ':' ∉ a :: t)
    (hhead : isAsciiAlpha a = true)
    (hall : (a :: t).all isSchemeChar = true)
    (hlow : (a :: t).map asciiLower = a :: t) :
    splitScheme ((a :: t) ++ ':' :: x) = (a :: t, x) := by
  unfold splitScheme
  rw [splitFirst_append_cons x hcolon]
  simp only
  rw [if_pos ⟨hhead, hall⟩, hlow]

theorem splitScheme_head_not_alpha {c : Char} {x : Str}
    (h : isAsciiAlpha c = false) : splitScheme (c :: x) = ([], c :: x) := by
  unfold splitScheme
  rcases hs : splitFirst ':' (c :: x) with _ | ⟨pre, post⟩
  · rfl
  · rcases pre with _ | ⟨a, t⟩
    · rfl
    · simp only
      have he := splitFirst_eq hs
      have hac : a = c := by
        have h1 := congrArg List.head? he
        simpa using h1.symm
      rw [if_neg]
      rintro ⟨h1, -⟩
      rw [hac, h] at h1
      exact absurd h1 (by simp)

theorem splitScheme_spec (r : Str) :
    splitScheme r = ([], r) ∨
    (∃ a t post, r = (a :: t) ++ ':' :: post ∧ ':' ∉ a :: t ∧
      isAsciiAlpha a = true ∧ (a :: t).all isSchemeChar = true ∧
      splitScheme r = ((a :: t).map asciiLower, post)) := by
  unfold splitScheme
  rcases hs : splitFirst ':' r with _ | ⟨pre, post⟩
  · left; rfl
  · rcases pre with _ | ⟨a, t⟩
    · left; rfl
    · by_cases hv : isAsciiAlpha a = true ∧ (a :: t).all isSchemeChar = true
      · right
        exact ⟨a, t, post, splitFirst_eq hs, splitFirst_not_mem hs, hv.1, hv.2,
          by simp only; rw [if_pos hv]⟩
      · left
        simp only
        rw [if_neg hv]

theorem splitScheme_no_scheme_of_prefix {r u0 qf : Str}
    (hr : splitScheme r = ([], r))
    (hpre : u0 <+: r)
    (hqf : qf = [] ∨ ∃ c cs, qf = c :: cs ∧ isSchemeChar c = false ∧ c ≠ ':') :
    splitScheme (u0 ++ qf) = ([], u0 ++ qf) := by
  unfold splitScheme
  rcases hs : splitFirst ':' (u0 ++ qf) with _ | ⟨pre, post⟩
  · rfl
  · rcases pre with _ | ⟨a, t⟩
    · rfl
    · simp only
      rw [if_neg]
      rintro ⟨hhead, hall⟩
      have he := splitFirst_eq hs
      have hnm := splitFirst_not_mem hs
      have hp1 : (a :: t) <+: u0 ++ qf := ⟨':' :: post, he.symm⟩
      have hp2 : u0 <+: u0 ++ qf := List.prefix_append u0 qf
      rcases List.prefix_or_prefix_of_prefix hp1 hp2 with hc | hc
      · -- the candidate scheme sits inside u0
        obtain ⟨e, hee⟩ := hc
        rcases e with _ | ⟨d, e'⟩
        · -- u0 = a :: t, so qf starts with the colon
          rw [← hee, List.append_nil] at he
          have := List.append_cancel_left he
          rcases hqf with rfl | ⟨c, cs, rfl, -, hcc⟩
          · simp at this
          · have h1 := congrArg List.head? this
            simp at h1
            exact hcc h1
        · -- u0 = (a :: t) ++ d :: e', and d must be the colon
          have he2 : d = ':' ∧ e' ++ qf = post := by
            rw [← hee] at he
            simpa [List.append_assoc] using he
          obtain ⟨rfl, -⟩ := he2
          -- r begins with (a :: t) ++ ':' …, so the original scheme parse succeeds
          obtain ⟨w, hw⟩ := hpre
          rw [← hee] at hw
          have hfr : splitFirst ':' r = some (a :: t, e' ++ w) := by
            rw [← hw, List.append_assoc, List.cons_append]
            exact splitFirst_append_cons _ hnm
          rw [splitScheme] at hr
          rw [hfr] at hr
          simp only at hr
          rw [if_pos ⟨hhead, hall⟩] at hr
          have h1 := congrArg Prod.fst hr
          simp at h1
      · -- u0 is a prefix of the candidate scheme: qf starts with a scheme char
        obtain ⟨e, hee⟩ := hc
        rcases e with _ | ⟨d, e'⟩
        · rw [← hee, List.append_nil] at he
          have := List.append_cancel_left he
          rcases hqf with rfl | ⟨c, cs, rfl, -, hcc⟩
          · simp at this
          · have h1 := congrArg List.head? this
            simp at h1
            exact hcc h1
        · have hqd : qf = (d :: e') ++ ':' :: post := by
            have h1 : u0 ++ qf = u0 ++ ((d :: e') ++ ':' :: post) := by
              rw [he, ← hee]
              simp
            exact List.append_cancel_left h1
          have hdmem : d ∈ a :: t := by
            rw [← hee]
            simp
          have hds : isSchemeChar d = true := by
            have := List.all_eq_true.mp hall d hdmem
            simpa using this
          rcases hqf with rfl | ⟨c, cs, hqf', hcs, -⟩
          · simp at hqd
          · rw [hqf'] at hqd
            have h1 := congrArg List.head? hqd
            simp at h1
            rw [h1] at hcs
            rw [hds] at hcs
            exact absurd hcs (by simp)

theorem paramsStage_roundtrip (sch r5 p ps : Str)
    (hpp : (if sch ∈ usesParams ∧ r5.contains ';' = true then splitParams r5
            else (r5, [])) = (p, ps)) :
    ((if ps ≠ [] then p ++ ';' :: ps else p) = r5 ∨
      r5 = (if ps ≠ [] then p ++ ';' :: ps else p) ++ [';']) ∧
    (if sch ∈ usesParams ∧
        (if ps ≠ [] then p ++ ';' :: ps else p).contains ';' = true then
      splitParams (if ps ≠ [] then p ++ ';' :: ps else p)
     else ((if ps ≠ [] then p ++ ';' :: ps else p), [])) = (p, ps) := by
  by_cases hc : sch ∈ usesParams ∧ r5.contains ';' = true
  · rw [if_pos hc] at hpp
    unfold splitParams at hpp
    rcases hsl : splitLast '/' r5 with _ | ⟨a, b⟩ <;> rw [hsl] at hpp <;>
      dsimp only at hpp
    · rcases hsf : splitFirst ';' r5 with _ | ⟨p', q'⟩ <;> rw [hsf] at hpp <;>
        dsimp only at hpp
      · exact absurd (contains_iff_mem.mp hc.2) (splitFirst_none hsf)
      · rw [Prod.mk.injEq] at hpp
        obtain ⟨rfl, rfl⟩ := hpp
        have hr5 : r5 = p' ++ ';' :: q' := splitFirst_eq hsf
        have hnp : ';' ∉ p' := splitFirst_not_mem hsf
        by_cases hps : q' = []
        · subst hps
          rw [if_neg (by simp)]
          refine ⟨Or.inr (by rw [hr5]), ?_⟩
          rw [if_neg]
          rintro ⟨-, hcp⟩
          exact hnp (contains_iff_mem.mp hcp)
        · rw [if_pos hps]
          refine ⟨Or.inl hr5.symm, ?_⟩
          rw [← hr5, if_pos hc]
          unfold splitParams
          rw [hsl]
          dsimp only
          rw [hsf]
    · rcases hsf : splitFirst ';' b with _ | ⟨p', q'⟩ <;> rw [hsf] at hpp <;>
        dsimp only at hpp
      · rw [Prod.mk.injEq] at hpp
        obtain ⟨rfl, h2⟩ := hpp
        obtain rfl : ps = [] := h2.symm
        rw [if_neg (by simp)]
        refine ⟨Or.inl rfl, ?_⟩
        rw [if_pos hc]
        unfold splitParams
        rw [hsl]
        dsimp only
        rw [hsf]
      · rw [Prod.mk.injEq] at hpp
        obtain ⟨rfl, rfl⟩ := hpp
        obtain ⟨hr5, hnb⟩ := splitLast_eq hsl
        have hb : b = p' ++ ';' :: q' := splitFirst_eq hsf
        have hnp : ';' ∉ p' := splitFirst_not_mem hsf
        by_cases hps : q' = []
        · subst hps
          have hnsp : '/' ∉ p' := by
            intro hm
            exact hnb (by rw [hb]; exact List.mem_append_left _ hm)
          rw [if_neg (by simp)]
          constructor
          · right
            rw [hr5, hb]
            simp
          · by_cases hcc : sch ∈ usesParams ∧
                (a ++ '/' :: p').contains ';' = true
            · rw [if_pos hcc]
              unfold splitParams
              rw [splitLast_append_cons hnsp]
              dsimp only
              rw [splitFirst_none_of_not_mem hnp]
            · rw [if_neg hcc]
        · rw [if_pos hps]
          have hu : (a ++ '/' :: p') ++ ';' :: q' = r5 := by
            rw [hr5, hb]
            simp
          refine ⟨Or.inl hu, ?_⟩
          rw [hu, if_pos hc]
          unfold splitParams
          rw [hsl]
          dsimp only
          rw [hsf]
  · rw [if_neg hc] at hpp
    rw [Prod.mk.injEq] at hpp
    obtain ⟨rfl, h2⟩ := hpp
    obtain rfl : ps = [] := h2.symm
    rw [if_neg (by simp)]
    exact ⟨Or.inl rfl, by rw [if_neg hc]⟩

theorem isPref_slashslash (x : Str) :
    isPref (str "//") ('/' :: '/' :: x) = true := by
  have h : str "//" = ['/', '/'] := rfl
  rw [h]
  simp [isPref]

theorem isPref_slash_cons (us : Str) :
    isPref (str "/") ('/' :: us) = true := by
  have h : str "/" = ['/'] := rfl
  rw [h]
  simp [isPref]

theorem isPref_two_append {u0 tails : Str}
    (h : isPref (str "//") u0 = false)
    (ht : tails = [] ∨ ∃ c cs, tails = c :: cs ∧ c ≠ '/') :
    isPref (str "//") (u0 ++ tails) = false := by
  have hs : str "//" = ['/', '/'] := rfl
  rw [Bool.eq_false_iff] at h ⊢
  intro hp
  apply h
  rw [isPref_iff_pref] at hp ⊢
  rw [hs] at hp ⊢
  obtain ⟨w, hw⟩ := hp
  rcases u0 with _ | ⟨a, u⟩
  · exfalso
    simp only [List.nil_append] at hw
    rcases ht with rfl | ⟨c, cs, hcc, hc⟩
    · simp at hw
    · rw [hcc] at hw
      injection hw with h1 h2
      exact hc h1.symm
  · rcases u with _ | ⟨b, u'⟩
    · exfalso
      simp only [List.cons_append, List.nil_append] at hw
      injection hw with h1 h2
      rcases ht with rfl | ⟨c, cs, hcc, hc⟩
      · simp at h2
      · rw [hcc] at h2
        injection h2 with h3 h4
        exact hc h3.symm
    · simp only [List.cons_append] at hw
      injection hw with h1 h2
      injection h2 with h3 h4
      rw [← h1, ← h3]
      exact ⟨u', rfl⟩

theorem urlsplitParts_stages (r : Str) :
    ∃ sch r1 nl r3 r4 p q fr,
      urlsplitParts r = ⟨sch, nl, p, [], q, fr⟩ ∧
      splitScheme r = (sch, r1) ∧
      ((nl = (r1.drop 2).takeWhile isNetlocChar ∧
          r3 = (r1.drop 2).dropWhile isNetlocChar ∧
          isPref (str "//") r1 = true) ∨
        (nl = [] ∧ r3 = r1 ∧ isPref (str "//") r1 = false)) ∧
      (splitFirst '#' r3 = some (r4, fr) ∨
        (splitFirst '#' r3 = none ∧ r4 = r3 ∧ fr = [])) ∧
      (splitFirst '?' r4 = some (p, q) ∨
        (splitFirst '?' r4 = none ∧ p = r4 ∧ q = [])) := by
  rcases hsp : splitScheme r with ⟨sch, r1⟩
  by_cases hnp : isPref (str "//") r1 = true
  · rcases hf : splitFirst '#' ((r1.drop 2).dropWhile isNetlocChar)
        with _ | ⟨r4, fr⟩
    · rcases hq : splitFirst '?' ((r1.drop 2).dropWhile isNetlocChar)
          with _ | ⟨p, q⟩
      · refine ⟨sch, r1, _, _, _, _, _, _, ?_, rfl, Or.inl ⟨rfl, rfl, hnp⟩,
          Or.inr ⟨hf, rfl, rfl⟩, Or.inr ⟨hq, rfl, rfl⟩⟩
        unfold urlsplitParts
        rw [hsp]
        dsimp only
        rw [if_pos hnp]
        dsimp only
        rw [hf]
        dsimp only
        rw [hq]
      · refine ⟨sch, r1, _, _, _, _, _, _, ?_, rfl, Or.inl ⟨rfl, rfl, hnp⟩,
          Or.inr ⟨hf, rfl, rfl⟩, Or.inl hq⟩
        unfold urlsplitParts
        rw [hsp]
        dsimp only
        rw [if_pos hnp]
        dsimp only
        rw [hf]
        dsimp only
        rw [hq]
    · rcases hq : splitFirst '?' r4 with _ | ⟨p, q⟩
      · refine ⟨sch, r1, _, _, _, _, _, _, ?_, rfl, Or.inl ⟨rfl, rfl, hnp⟩,
          Or.inl hf, Or.inr ⟨hq, rfl, rfl⟩⟩
        unfold urlsplitParts
        rw [hsp]
        dsimp only
        rw [if_pos hnp]
        dsimp only
        rw [hf]
        dsimp only
        rw [hq]
      · refine ⟨sch, r1, _, _, _, _, _, _, ?_, rfl, Or.inl ⟨rfl, rfl, hnp⟩,
          Or.inl hf, Or.inl hq⟩
        unfold urlsplitParts
        rw [hsp]
        dsimp only
        rw [if_pos hnp]
        dsimp only
        rw [hf]
        dsimp only
        rw [hq]
  · have hnp' : isPref (str "//") r1 = false := by
      rcases hb : isPref (str "//") r1
      · rfl
      · exact absurd hb hnp
    rcases hf : splitFirst '#' r1 with _ | ⟨r4, fr⟩
    · rcases hq : splitFirst '?' r1 with _ | ⟨p, q⟩
      · refine ⟨sch, r1, _, _, _, _, _, _, ?_, rfl, Or.inr ⟨rfl, rfl, hnp'⟩,
          Or.inr ⟨hf, rfl, rfl⟩, Or.inr ⟨hq, rfl, rfl⟩⟩
        unfold urlsplitParts
        rw [hsp]
        dsimp only
        rw [if_neg hnp]
        dsimp only
        rw [hf]
        dsimp only
        rw [hq]
      · refine ⟨sch, r1, _, _, _, _, _, _, ?_, rfl, Or.inr ⟨rfl, rfl, hnp'⟩,
          Or.inr ⟨hf, rfl, rfl⟩, Or.inl hq⟩
        unfold urlsplitParts
        rw [hsp]
        dsimp only
        rw [if_neg hnp]
        dsimp only
        rw [hf]
        dsimp only
        rw [hq]
    · rcases hq : splitFirst '?' r4 with _ | ⟨p, q⟩
      · refine ⟨sch, r1, _, _, _, _, _, _, ?_, rfl, Or.inr ⟨rfl, rfl, hnp'⟩,
          Or.inl hf, Or.inr ⟨hq, rfl, rfl⟩⟩
        unfold urlsplitParts
        rw [hsp]
        dsimp only
        rw [if_neg hnp]
        dsimp only
        rw [hf]
        dsimp only
        rw [hq]
      · refine ⟨sch, r1, _, _, _, _, _, _, ?_, rfl, Or.inr ⟨rfl, rfl, hnp'⟩,
          Or.inl hf, Or.inl hq⟩
        unfold urlsplitParts
        rw [hsp]
        dsimp only
        rw [if_neg hnp]
        dsimp only
        rw [hf]
        dsimp only
        rw [hq]

theorem netlocStage_slashslash {netloc rest2 : Str}
    (hnet : netloc.all isNetlocChar = true)
    (hsh : rest2 = [] ∨ ∃ c cs, rest2 = c :: cs ∧ isNetlocChar c = false) :
    (if isPref (str "//") ('/' :: '/' :: (netloc ++ rest2)) = true then
        ((('/' :: '/' :: (netloc ++ rest2)).drop 2).takeWhile isNetlocChar,
          (('/' :: '/' :: (netloc ++ rest2)).drop 2).dropWhile isNetlocChar)
      else ([], '/' :: '/' :: (netloc ++ rest2))) = (netloc, rest2) := by
  rw [if_pos (isPref_slashslash _)]
  show ((netloc ++ rest2).takeWhile isNetlocChar,
    (netloc ++ rest2).dropWhile isNetlocChar) = _
  rw [takeWhile_append_all _ hnet, dropWhile_append_all _ hnet,
    takeWhile_nil_of_head hsh, dropWhile_self_of_head hsh, List.append_nil]

theorem netlocStage_none {rest : Str}
    (h : isPref (str "//") rest = false) :
    (if isPref (str "//") rest = true then
        ((rest.drop 2).takeWhile isNetlocChar,
          (rest.drop 2).dropWhile isNetlocChar)
      else ([], rest)) = ([], rest) := by
  rw [if_neg (by simp [h])]

theorem urlsplitParts_of_stages {T sch rest netloc u0 q frag : Str}
    (h1 : splitScheme T = (sch, rest))
    (h2 : (if isPref (str "//") rest = true then
        ((rest.drop 2).takeWhile isNetlocChar,
          (rest.drop 2).dropWhile isNetlocChar)
      else ([], rest)) =
      (netloc, u0 ++ ((if q ≠ [] then '?' :: q else []) ++
        (if frag ≠ [] then '#' :: frag else []))))
    (hu0q : '?' ∉ u0) (hu0f : '#' ∉ u0) (hqf : '#' ∉ q) :
    urlsplitParts T = ⟨sch, netloc, u0, [], q, frag⟩ := by
  have hnoHash : '#' ∉ u0 ++ (if q ≠ [] then '?' :: q else ([] : Str)) := by
    intro hm
    rcases List.mem_append.mp hm with h | h
    · exact hu0f h
    · by_cases hq : q = []
      · rw [if_neg (show ¬ q ≠ [] by simp [hq])] at h
        simp at h
      · rw [if_pos hq] at h
        rcases List.mem_cons.mp h with h | h
        · exact absurd h (by decide)
        · exact hqf h
  unfold urlsplitParts
  rw [h1]
  dsimp only
  rw [h2]
  dsimp only
  by_cases hf : frag = []
  · rw [if_neg (show ¬ frag ≠ [] by simp [hf]), List.append_nil,
      splitFirst_none_of_not_mem hnoHash]
    dsimp only
    by_cases hq : q = []
    · rw [if_neg (show ¬ q ≠ [] by simp [hq]), List.append_nil,
        splitFirst_none_of_not_mem hu0q]
      dsimp only
      rw [hf, hq]
    · rw [if_pos hq, splitFirst_append_cons q hu0q]
      dsimp only
      rw [hf]
  · rw [if_pos hf, ← List.append_assoc, splitFirst_append_cons frag hnoHash]
    dsimp only
    by_cases hq : q = []
    · rw [if_neg (show ¬ q ≠ [] by simp [hq]), List.append_nil,
        splitFirst_none_of_not_mem hu0q]
      dsimp only
      rw [hq]
    · rw [if_pos hq, splitFirst_append_cons q hu0q]

theorem urlsplit_geturl_gen (sch netloc u0 q frag : Str)
    (hsch : sch = [] ∨ ∃ a t, sch = a :: t ∧ ':' ∉ sch ∧ isAsciiAlpha a = true ∧
        sch.all isSchemeChar = true ∧ sch.map asciiLower = sch)
    (hnet : netloc.all isNetlocChar = true)
    (hu0q : '?' ∉ u0) (hu0f : '#' ∉ u0) (hqf : '#' ∉ q)
    (hhead : (netloc ≠ [] ∨ isPref (str "//") u0 = true) →
      u0 = [] ∨ u0.head? = some '/')
    (hnos : sch = [] → netloc = [] → isPref (str "//") u0 = false →
      splitScheme (u0 ++ ((if q ≠ [] then '?' :: q else []) ++
          (if frag ≠ [] then '#' :: frag else []))) =
        ([], u0 ++ ((if q ≠ [] then '?' :: q else []) ++
          (if frag ≠ [] then '#' :: frag else [])))) :
    urlsplitParts (geturl ⟨sch, netloc, u0, [], q, frag⟩) =
      ⟨sch, netloc, u0, [], q, frag⟩ := by
  have hG : geturl ⟨sch, netloc, u0, [], q, frag⟩ =
      (if sch ≠ [] then sch ++ ':' ::
          (if netloc ≠ [] ∨ isPref (str "//") u0 = true then
            '/' :: '/' :: (netloc ++
              (if u0 ≠ [] ∧ ¬ isPref (str "/") u0 = true then '/' :: u0 else u0))
          else u0)
        else
          (if netloc ≠ [] ∨ isPref (str "//") u0 = true then
            '/' :: '/' :: (netloc ++
              (if u0 ≠ [] ∧ ¬ isPref (str "/") u0 = true then '/' :: u0 else u0))
          else u0)) ++
        ((if q ≠ [] then '?' :: q else []) ++
          (if frag ≠ [] then '#' :: frag else [])) := by
    unfold geturl
    dsimp only
    rw [if_neg (show ¬ ([] : Str) ≠ [] by simp)]
    by_cases hq : q = [] <;> by_cases hf : frag = [] <;>
      simp [hq, hf, List.append_assoc]
  rw [hG]
  by_cases hB : netloc ≠ [] ∨ isPref (str "//") u0 = true
  · have hu0h := hhead hB
    have hprep : ¬ (u0 ≠ [] ∧ ¬ isPref (str "/") u0 = true) := by
      rcases hu0h with rfl | hh
      · simp
      · rcases u0 with _ | ⟨c, us⟩
        · simp at hh
        · have hc : c = '/' := by simpa using hh
          subst hc
          rw [isPref_slash_cons]
          simp
    rw [if_pos hB, if_neg hprep]
    have hsh : u0 ++ ((if q ≠ [] then '?' :: q else []) ++
        (if frag ≠ [] then '#' :: frag else [])) = [] ∨
        ∃ c cs, u0 ++ ((if q ≠ [] then '?' :: q else []) ++
          (if frag ≠ [] then '#' :: frag else [])) = c :: cs ∧
          isNetlocChar c = false := by
      rcases hu0h with rfl | hh
      · simp only [List.nil_append]
        by_cases hq : q = []
        · rw [if_neg (show ¬ q ≠ [] by simp [hq]), List.nil_append]
          by_cases hf : frag = []
          · rw [if_neg (show ¬ frag ≠ [] by simp [hf])]
            left
            rfl
          · rw [if_pos hf]
            right
            exact ⟨'#', frag, rfl, by decide⟩
        · rw [if_pos hq]
          right
          exact ⟨'?', q ++ _, rfl, by decide⟩
      · rcases u0 with _ | ⟨c, us⟩
        · simp at hh
        · have hc : c = '/' := by simpa using hh
          subst hc
          right
          exact ⟨'/', us ++ _, rfl, by decide⟩
    have h2 := netlocStage_slashslash hnet hsh
    rcases hsch with rfl | ⟨a, t, hsa, hcol, halpha, hall, hlow⟩
    · rw [if_neg (show ¬ ([] : Str) ≠ [] by simp)]
      rw [show ('/' :: '/' :: (netloc ++ u0)) ++
            ((if q ≠ [] then '?' :: q else []) ++
              (if frag ≠ [] then '#' :: frag else [])) =
          '/' :: '/' :: (netloc ++ (u0 ++
            ((if q ≠ [] then '?' :: q else []) ++
              (if frag ≠ [] then '#' :: frag else [])))) from by simp]
      exact urlsplitParts_of_stages
        (splitScheme_head_not_alpha (by decide)) h2 hu0q hu0f hqf
    · subst hsa
      rw [if_pos (show (a :: t) ≠ [] by simp)]
      rw [show ((a :: t) ++ ':' :: ('/' :: '/' :: (netloc ++ u0))) ++
            ((if q ≠ [] then '?' :: q else []) ++
              (if frag ≠ [] then '#' :: frag else [])) =
          (a :: t) ++ ':' :: ('/' :: '/' :: (netloc ++ (u0 ++
            ((if q ≠ [] then '?' :: q else []) ++
              (if frag ≠ [] then '#' :: frag else []))))) from by simp]
      exact urlsplitParts_of_stages
        (splitScheme_valid_pref hcol halpha hall hlow) h2 hu0q hu0f hqf
  · rw [if_neg hB]
    rw [not_or] at hB
    have hnl : netloc = [] := not_not.mp hB.1
    have hpp : isPref (str "//") u0 = false := by
      rcases hb : isPref (str "//") u0
      · rfl
      · exact absurd hb hB.2
    have hTLsh : ((if q ≠ [] then '?' :: q else ([] : Str)) ++
        (if frag ≠ [] then '#' :: frag else [])) = [] ∨
        ∃ c cs, ((if q ≠ [] then '?' :: q else ([] : Str)) ++
          (if frag ≠ [] then '#' :: frag else [])) = c :: cs ∧ c ≠ '/' := by
      by_cases hq : q = []
      · rw [if_neg (show ¬ q ≠ [] by simp [hq]), List.nil_append]
        by_cases hf : frag = []
        · rw [if_neg (show ¬ frag ≠ [] by simp [hf])]
          left
          rfl
        · rw [if_pos hf]
          right
          exact ⟨'#', frag, rfl, by decide⟩
      · rw [if_pos hq]
        right
        exact ⟨'?', q ++ _, rfl, by decide⟩
    have hpref2 : isPref (str "//") (u0 ++
        ((if q ≠ [] then '?' :: q else []) ++
          (if frag ≠ [] then '#' :: frag else []))) = false :=
      isPref_two_append hpp hTLsh
    have h2 := netlocStage_none hpref2
    rw [hnl]
    rcases hsch with rfl | ⟨a, t, hsa, hcol, halpha, hall, hlow⟩
    · rw [if_neg (show ¬ ([] : Str) ≠ [] by simp)]
      exact urlsplitParts_of_stages (hnos rfl hnl hpp) h2 hu0q hu0f hqf
    · subst hsa
      rw [if_pos (show (a :: t) ≠ [] by simp)]
      rw [show ((a :: t) ++ ':' :: u0) ++
            ((if q ≠ [] then '?' :: q else []) ++
              (if frag ≠ [] then '#' :: frag else [])) =
          (a :: t) ++ ':' :: (u0 ++
            ((if q ≠ [] then '?' :: q else []) ++
              (if frag ≠ [] then '#' :: frag else []))) from by simp]
      exact urlsplitParts_of_stages
        (splitScheme_valid_pref hcol halpha hall hlow) h2 hu0q hu0f hqf

theorem urlparse_geturl (r : Str) :
    urlparse (geturl (urlparse r)) = urlparse r := by
  obtain ⟨sch, r1, nl, r3, r4, p0, q, fr, hU, hsp, hnl, hf, hq4⟩ :=
    urlsplitParts_stages r
  rcases hPP : (if sch ∈ usesParams ∧ p0.contains ';' = true
      then splitParams p0 else (p0, [])) with ⟨p, ps⟩
  have h1 := paramsStage_roundtrip sch p0 p ps hPP
  have hup : urlparse r = ⟨sch, nl, p, ps, q, fr⟩ := by
    unfold urlparse
    rw [hU]
    dsimp only
    by_cases hc : sch ∈ usesParams ∧ p0.contains ';' = true
    · rw [if_pos hc] at hPP ⊢
      rw [hPP]
    · rw [if_neg hc] at hPP ⊢
      rw [Prod.mk.injEq] at hPP
      rw [hPP.1, ← hPP.2]
  obtain ⟨u0, hu0def⟩ : ∃ u0, u0 = (if ps ≠ [] then p ++ ';' :: ps else p) :=
    ⟨_, rfl⟩
  rw [← hu0def] at h1
  have hpre : u0 <+: p0 := by
    rcases h1.1 with h | h
    · rw [h]
    · rw [h]
      exact List.prefix_append _ _
  have h4f : '#' ∉ r4 := by
    rcases hf with hfs | ⟨hfn, h41, -⟩
    · exact splitFirst_not_mem hfs
    · rw [h41]
      exact splitFirst_none hfn
  have h43 : r4 <+: r3 := by
    rcases hf with hfs | ⟨hfn, h41, -⟩
    · exact ⟨'#' :: fr, (splitFirst_eq hfs).symm⟩
    · rw [h41]
  have hp04 : p0 <+: r4 := by
    rcases hq4 with hqs | ⟨-, hp1, -⟩
    · exact ⟨'?' :: q, (splitFirst_eq hqs).symm⟩
    · rw [hp1]
  have hq0p : '?' ∉ p0 := by
    rcases hq4 with hqs | ⟨hqn, hp1, -⟩
    · exact splitFirst_not_mem hqs
    · rw [hp1]
      exact splitFirst_none hqn
  have hf0p : '#' ∉ p0 := fun hm => h4f (hp04.subset hm)
  have hq3f : '#' ∉ q := by
    rcases hq4 with hqs | ⟨-, -, hq1⟩
    · intro hm
      exact h4f (by
        rw [splitFirst_eq hqs]
        exact List.mem_append_right _ (List.mem_cons_of_mem _ hm))
    · rw [hq1]
      exact List.not_mem_nil _
  have hu0q : '?' ∉ u0 := fun hm => hq0p (hpre.subset hm)
  have hu0f : '#' ∉ u0 := fun hm => hf0p (hpre.subset hm)
  have hschv : sch = [] ∨ ∃ a t, sch = a :: t ∧ ':' ∉ sch ∧
      isAsciiAlpha a = true ∧ sch.all isSchemeChar = true ∧
      sch.map asciiLower = sch := by
    rcases splitScheme_spec r with h0 | ⟨a, t, post, hre, hcol, halpha, hall, hsp'⟩
    · left
      have h5 := h0.symm.trans hsp
      rw [Prod.mk.injEq] at h5
      exact h5.1.symm
    · right
      have h5 := hsp'.symm.trans hsp
      rw [Prod.mk.injEq] at h5
      refine ⟨asciiLower a, t.map asciiLower, ?_, ?_, ?_, ?_, ?_⟩
      · rw [← h5.1]
        rfl
      · rw [← h5.1]
        exact colon_not_mem_map_asciiLower hcol
      · rw [isAsciiAlpha_asciiLower]
        exact halpha
      · rw [← h5.1, all_isSchemeChar_map_asciiLower]
        exact hall
      · rw [← h5.1, map_asciiLower_idem]
  have hnetv : nl.all isNetlocChar = true := by
    rcases hnl with ⟨rfl, -, -⟩ | ⟨rfl, -, -⟩
    · exact all_takeWhile _ _
    · rfl
  have hheadv : (nl ≠ [] ∨ isPref (str "//") u0 = true) →
      u0 = [] ∨ u0.head? = some '/' := by
    intro hBB
    rcases hBB with hnlne | hslash
    · rcases hnl with ⟨-, hr3, -⟩ | ⟨rfl, -, -⟩
      · have hu3 : u0 <+: r3 := hpre.trans (hp04.trans h43)
        rcases u0 with _ | ⟨c, us⟩
        · left
          rfl
        · right
          obtain ⟨w, hw⟩ := hu3
          have hh3 : r3.head? = some c := by
            rw [← hw]
            rfl
          have hcn : isNetlocChar c = false := by
            rw [hr3] at hh3
            exact head_dropWhile_false hh3
          have hcm : c ∈ c :: us := List.mem_cons_self _ _
          rcases isNetlocChar_false_iff.mp hcn with rfl | rfl | rfl
          · rfl
          · exact absurd hcm hu0q
          · exact absurd hcm hu0f
      · exact absurd rfl hnlne
    · right
      rw [isPref_iff_pref] at hslash
      obtain ⟨w, hw⟩ := hslash
      rw [show str "//" = ['/', '/'] from rfl] at hw
      rw [← hw]
      rfl
  have hnosv : sch = [] → nl = [] → isPref (str "//") u0 = false →
      splitScheme (u0 ++ ((if q ≠ [] then '?' :: q else []) ++
          (if fr ≠ [] then '#' :: fr else []))) =
        ([], u0 ++ ((if q ≠ [] then '?' :: q else []) ++
          (if fr ≠ [] then '#' :: fr else []))) := by
    intro hs0 hnl0 hppf
    rcases hnl with ⟨-, hr3, -⟩ | ⟨-, hr3, -⟩
    · have hu3 : u0 <+: r3 := hpre.trans (hp04.trans h43)
      rcases u0 with _ | ⟨c, us⟩
      · simp only [List.nil_append]
        by_cases hq : q = []
        · rw [if_neg (show ¬ q ≠ [] by simp [hq]), List.nil_append]
          by_cases hfe : fr = []
          · rw [if_neg (show ¬ fr ≠ [] by simp [hfe])]
            rfl
          · rw [if_pos hfe]
            exact splitScheme_head_not_alpha (by decide)
        · rw [if_pos hq, List.cons_append]
          exact splitScheme_head_not_alpha (by decide)
      · obtain ⟨w, hw⟩ := hu3
        have hh3 : r3.head? = some c := by
          rw [← hw]
          rfl
        have hcn : isNetlocChar c = false := by
          rw [hr3] at hh3
          exact head_dropWhile_false hh3
        have hcm : c ∈ c :: us := List.mem_cons_self _ _
        rcases isNetlocChar_false_iff.mp hcn with rfl | rfl | rfl
        · rw [List.cons_append]
          exact splitScheme_head_not_alpha (by decide)
        · exact absurd hcm hu0q
        · exact absurd hcm hu0f
    · have hr0 : splitScheme r = ([], r) := by
        rcases splitScheme_spec r with h0 | ⟨a, t, post, hre, hcol, halpha, hall, hsp'⟩
        · exact h0
        · exfalso
          have h5 := hsp'.symm.trans hsp
          rw [Prod.mk.injEq] at h5
          have h6 := h5.1
          rw [hs0] at h6
          simp at h6
      have hr1r : r1 = r := by
        have h5 := hr0.symm.trans hsp
        rw [Prod.mk.injEq] at h5
        exact h5.2.symm
      have hu3 : u0 <+: r := by
        rw [← hr1r, ← hr3]
        exact hpre.trans (hp04.trans h43)
      apply splitScheme_no_scheme_of_prefix hr0 hu3
      by_cases hq : q = []
      · rw [if_neg (show ¬ q ≠ [] by simp [hq]), List.nil_append]
        by_cases hfe : fr = []
        · rw [if_neg (show ¬ fr ≠ [] by simp [hfe])]
          left
          rfl
        · rw [if_pos hfe]
          right
          exact ⟨'#', fr, rfl, by decide⟩
      · rw [if_pos hq]
        right
        exact ⟨'?', q ++ _, rfl, by decide⟩
  have hgen := urlsplit_geturl_gen sch nl u0 q fr hschv hnetv hu0q hu0f hq3f
    hheadv hnosv
  have hg : geturl ⟨sch, nl, p, ps, q, fr⟩ = geturl ⟨sch, nl, u0, [], q, fr⟩ := by
    rw [hu0def]
    unfold geturl
    dsimp only
    rw [if_neg (show ¬ ([] : Str) ≠ [] by simp)]
  rw [hup, hg]
  unfold urlparse
  rw [hgen]
  dsimp only
  have h2 := h1.2
  by_cases hcc : sch ∈ usesParams ∧ u0.contains ';' = true
  · rw [if_pos hcc] at h2 ⊢
    rw [h2]
  · rw [if_neg hcc] at h2 ⊢
    rw [Prod.mk.injEq] at h2
    rw [h2.1, ← h2.2]

/-- Reassembly only depends on the rendering of the matches. -/
theorem joinPieces_congr {f g : MdMatch → Str} :
    ∀ (ps : List (Str × MdMatch)) (tail : Str),
      (∀ p ∈ ps, f p.2 = g p.2) →
      joinPieces f ps tail = joinPieces g ps tail := by
  intro ps
  induction ps with
  | nil =>
    intro tail h
    rfl
  | cons p rest ih =>
    intro tail h
    rcases p with ⟨gp, m⟩
    show gp ++ (f m ++ joinPieces f rest tail) =
      gp ++ (g m ++ joinPieces g rest tail)
    rw [h ⟨gp, m⟩ (List.mem_cons_self _ _),
      ih tail (fun x hx => h x (List.mem_cons_of_mem _ hx))]

/-- C5: Reference classification.  A scanned image URL contributes its
path to the local set exactly when its parsed scheme is empty or
`file`; a parsed URL is in the remote-on-target set exactly when its
scheme is `http` or `https`, the endpoint host test accepts it, and its
path starts with `/wp-content/uploads/`; a URL in neither class never
serializes into the downloaded set (so its occurrence is reproduced as
`match.group(0)`), and when no scanned URL was downloaded the body is
left unmodified. -/
theorem c5_classification (isHost : UrlParts → Bool) (content : Str) :
    (∀ pth, pth ∈ local_image_references content ↔
      ∃ m, m ∈ imgMatches content ∧
        ((urlparse m.url).scheme = [] ∨ (urlparse m.url).scheme = str "file") ∧
        pth = (urlparse m.url).path) ∧
    (∀ u, u ∈ remote_image_references isHost content ↔
      ∃ m, m ∈ imgMatches content ∧ u = urlparse m.url ∧
        ((u.scheme = str "https" ∨ u.scheme = str "http") ∧ isHost u = true ∧
          isPref (str "/wp-content/uploads/") u.path = true)) ∧
    (∀ m, m ∈ imgMatches content →
      ¬ ((urlparse m.url).scheme = [] ∨ (urlparse m.url).scheme = str "file") →
      ¬ (((urlparse m.url).scheme = str "https" ∨
            (urlparse m.url).scheme = str "http") ∧
          isHost (urlparse m.url) = true ∧
          isPref (str "/wp-content/uploads/") (urlparse m.url).path = true) →
      geturl (urlparse m.url) ∉ downloadedSet isHost content) ∧
    ((∀ m, m ∈ imgMatches content →
        ¬ ((urlparse m.url).scheme = [] ∨ (urlparse m.url).scheme = str "file") ∧
        ¬ (((urlparse m.url).scheme = str "https" ∨
              (urlparse m.url).scheme = str "http") ∧
            isHost (urlparse m.url) = true ∧
            isPref (str "/wp-content/uploads/") (urlparse m.url).path = true)) →
      download_remote_images isHost content = content) := by
  have key : ∀ m, m ∈ imgMatches content →
      ¬ (((urlparse m.url).scheme = str "https" ∨
            (urlparse m.url).scheme = str "http") ∧
          isHost (urlparse m.url) = true ∧
          isPref (str "/wp-content/uploads/") (urlparse m.url).path = true) →
      geturl (urlparse m.url) ∉ downloadedSet isHost content := by
    intro m hm hnr hmem
    unfold downloadedSet at hmem
    obtain ⟨u', hu', hgu⟩ := List.mem_map.mp hmem
    unfold remote_image_references at hu'
    rw [List.mem_dedup] at hu'
    obtain ⟨hu1, hu2⟩ := List.mem_filter.mp hu'
    obtain ⟨m', hm', rfl⟩ := List.mem_map.mp hu1
    have hpred := of_decide_eq_true hu2
    have hr1 := urlparse_geturl m'.url
    have hr2 := urlparse_geturl m.url
    have heq : urlparse m'.url = urlparse m.url := by
      rw [← hr1, ← hr2, hgu]
    rw [heq] at hpred
    exact hnr hpred
  refine ⟨?_, ?_, fun m hm _ => key m hm, ?_⟩
  · intro pth
    unfold local_image_references
    rw [List.mem_dedup]
    constructor
    · intro h
      obtain ⟨u, hu, hup⟩ := List.mem_map.mp h
      obtain ⟨hu1, hu2⟩ := List.mem_filter.mp hu
      obtain ⟨m, hm, rfl⟩ := List.mem_map.mp hu1
      exact ⟨m, hm, of_decide_eq_true hu2, hup.symm⟩
    · rintro ⟨m, hm, hsc, rfl⟩
      apply List.mem_map.mpr
      refine ⟨urlparse m.url, ?_, rfl⟩
      apply List.mem_filter.mpr
      exact ⟨List.mem_map.mpr ⟨m, hm, rfl⟩, decide_eq_true hsc⟩
  · intro u
    unfold remote_image_references
    rw [List.mem_dedup]
    constructor
    · intro h
      obtain ⟨hu1, hu2⟩ := List.mem_filter.mp h
      obtain ⟨m, hm, rfl⟩ := List.mem_map.mp hu1
      exact ⟨m, hm, rfl, of_decide_eq_true hu2⟩
    · rintro ⟨m, hm, rfl, hpred⟩
      apply List.mem_filter.mpr
      exact ⟨List.mem_map.mpr ⟨m, hm, rfl⟩, decide_eq_true hpred⟩
  · intro hall
    unfold download_remote_images
    rw [imgSub_eq_joinPieces]
    rw [joinPieces_congr (imgPieces content).1 (imgPieces content).2
      (fun p hp => ?_)]
    · exact joinPieces_matchText _
    · have hpm : p.2 ∈ imgMatches content := by
        rw [← imgPieces_matches]
        exact List.mem_map.mpr ⟨p, hp, rfl⟩
      show (if geturl (urlparse p.2.url) ∈ downloadedSet isHost content then
          str "![" ++ p.2.alt ++ (str "](./images/" ++
            (pathName (urlparse p.2.url).path ++ (p.2.caption ++ [')'])))
        else matchText p.2) = matchText p.2
      rw [if_neg (key p.2 hpm (hall p.2 hpm).2)]

set_option maxRecDepth 16384 in
theorem c5_witness :
    (str "./images/img.png" ∈ local_image_references
      (str "![a](https://example.com/wp-content/uploads/2023/01/img.png)![b](https://other.com/wp-content/uploads/img.png)![c](./images/img.png)")) ∧
    (urlparse (str "https://example.com/wp-content/uploads/2023/01/img.png") ∈
      remote_image_references (fun u => u.netloc = str "example.com")
        (str "![a](https://example.com/wp-content/uploads/2023/01/img.png)![b](https://other.com/wp-content/uploads/img.png)![c](./images/img.png)")) ∧
    geturl (urlparse (str "https://other.com/wp-content/uploads/img.png")) ∉
      downloadedSet (fun u => u.netloc = str "example.com")
        (str "![a](https://example.com/wp-content/uploads/2023/01/img.png)![b](https://other.com/wp-content/uploads/img.png)![c](./images/img.png)") :=
  ⟨((c5_classification (fun u => u.netloc = str "example.com")
        (str "![a](https://example.com/wp-content/uploads/2023/01/img.png)![b](https://other.com/wp-content/uploads/img.png)![c](./images/img.png)")).1
      (str "./images/img.png")).mpr
    ⟨⟨str "c", str "./images/img.png", []⟩, by decide, by decide, by decide⟩,
  ((c5_classification (fun u => u.netloc = str "example.com")
        (str "![a](https://example.com/wp-content/uploads/2023/01/img.png)![b](https://other.com/wp-content/uploads/img.png)![c](./images/img.png)")).2.1
      (urlparse (str "https://example.com/wp-content/uploads/2023/01/img.png"))).mpr
    ⟨⟨str "a", str "https://example.com/wp-content/uploads/2023/01/img.png", []⟩,
      by decide, by decide, by decide⟩,
  (c5_classification (fun u => u.netloc = str "example.com")
        (str "![a](https://example.com/wp-content/uploads/2023/01/img.png)![b](https://other.com/wp-content/uploads/img.png)![c](./images/img.png)")).2.2.1
    ⟨str "b", str "https://other.com/wp-content/uploads/img.png", []⟩
    (by decide) (by decide) (by decide)⟩
